import Mathlib

/-!
Verification of the document-splitter and text-normalizer core of the
og-title-assistant repository, against its specification.

The Python sources `src/splitter.py` and `src/normalizer.py` are shallowly
embedded below.  Strings are modelled as Lean `String`s over their `List Char`
data (ASCII model: the repository's inputs and all pattern literals are
ASCII).  Python regular expressions are hand-compiled, pattern by pattern,
into explicit scanning functions with Python's leftmost-match and
backtracking semantics; where a regex construct is deterministic in the
context it is used in (for instance a greedy `\d+` followed by a
non-digit literal), the compiled scanner exploits that and a comment notes
the reasoning.  Python's `$` (end of string, or just before a trailing
newline) is modelled exactly.
-/

/-! ## Character classes (Python `\s`, `\w`, `\d`, upper-casing, stripping) -/

/-- Python `\s` for ASCII: space, tab, newline, carriage return,
vertical tab, form feed. -/
def isSpaceChar (c : Char) : Bool :=
  c = ' ' || c = '\t' || c = '\n' || c = '\x0d' || c = '\x0b' || c = '\x0c'

/-- Python `\w` for ASCII: letters, digits, underscore. -/
def isWordChar (c : Char) : Bool :=
  c.isAlpha || c.isDigit || c = '_'

/-- ASCII uppercase letter `[A-Z]`. -/
def isUpperAZ (c : Char) : Bool :=
  'A' ≤ c && c ≤ 'Z'

/-- Python `str.upper()` on ASCII text. -/
def pyUpper (s : String) : String :=
  ⟨s.data.map Char.toUpper⟩

/-- Drop trailing whitespace (structural recursion, so that the kernel can
evaluate it). -/
def dropTrailingWs : List Char → List Char
  | [] => []
  | c :: rest =>
    let r := dropTrailingWs rest
    if r = [] && isSpaceChar c then [] else c :: r

/-- Python `str.strip()` on a character list. -/
def pyStripL (cs : List Char) : List Char :=
  dropTrailingWs (cs.dropWhile isSpaceChar)

/-- Python `str.strip()`. -/
def pyStrip (s : String) : String :=
  ⟨pyStripL s.data⟩

/-- Python `pat in s` substring test (for non-empty `pat` and for the empty
pattern, which is contained in everything, exactly as in Python). -/
def containsSub (pat : List Char) : List Char → Bool
  | [] => pat.isEmpty
  | c :: rest => pat.isPrefixOf (c :: rest) || containsSub pat rest

/-- Python `s.replace(pat, "")`, non-overlapping, left to right.
`fuel` bounds the recursion; `replaceDel` instantiates it with the length
of the string, which is always enough. -/
def replaceDelFuel (pat : List Char) : Nat → List Char → List Char
  | 0, cs => cs
  | _ + 1, [] => []
  | fuel + 1, c :: rest =>
    if pat ≠ [] && pat.isPrefixOf (c :: rest) then
      replaceDelFuel pat fuel ((c :: rest).drop pat.length)
    else
      c :: replaceDelFuel pat fuel rest

/-- Python `s.replace(pat, "")`. -/
def replaceDel (pat cs : List Char) : List Char :=
  replaceDelFuel pat cs.length cs

/-! ## `splitter.py`: data model -/

/-- `splitter.ExhibitInfo`.  Pages are Python ints, hence `Int` here
(end-page arithmetic can go negative). -/
structure ExhibitInfo where
  marker : String
  start_page : Int
  exhibit_type : String
  end_page : Option Int := none
  path : Option String := none
  page_count : Int := 0
  deriving DecidableEq, Repr

/-- `splitter.SplitPoints`. -/
structure SplitPoints where
  body_end : Option Int := none
  exhibits : List ExhibitInfo := []
  total_pages : Int := 0
  deriving DecidableEq, Repr

/-- `splitter.SplitResult`. -/
structure SplitResult where
  body_path : Option String := none
  exhibits : List ExhibitInfo := []
  original_path : String := ""
  total_pages : Int := 0
  body_pages : Int := 0
  deriving DecidableEq, Repr

/-- `splitter.EXHIBIT_MARKERS`. -/
def EXHIBIT_MARKERS : List String :=
  ["EXHIBIT A", "EXHIBIT B", "EXHIBIT C", "EXHIBIT D", "EXHIBIT E",
   "EXHIBIT 1", "EXHIBIT 2", "EXHIBIT 3",
   "SCHEDULE OF LEASES", "SCHEDULE 1", "SCHEDULE 2", "SCHEDULE A",
   "SCHEDULE B", "LEASE SCHEDULE", "SCHEDULE OF LANDS",
   "ATTACHED HERETO", "ATTACHMENT A", "ATTACHMENT 1",
   "DESCRIPTION OF LANDS", "LEGAL DESCRIPTION", "PROPERTY DESCRIPTION",
   "SCHEDULE OF INTERESTS", "TRACT SCHEDULE", "WELL SCHEDULE",
   "UNIT SCHEDULE"]

/-- `splitter.TABLE_INDICATORS`. -/
def TABLE_INDICATORS : List String :=
  ["SCHEDULE", "LEASES", "TRACT", "INTERESTS", "WELLS", "UNITS",
   "LESSOR", "LESSEE"]

/-- `splitter.LEGAL_DESC_INDICATORS`. -/
def LEGAL_DESC_INDICATORS : List String :=
  ["LEGAL DESCRIPTION", "LANDS", "PROPERTY", "SECTION", "TOWNSHIP",
   "RANGE", "QUARTER", "METES AND BOUNDS"]

/-- `splitter.IMAGE_INDICATORS`. -/
def IMAGE_INDICATORS : List String :=
  ["PLAT", "MAP", "SURVEY", "DRAWING", "DIAGRAM"]

/-- `splitter._classify_exhibit_type`: keyword-set membership against
marker-or-text, in the fixed order table → legal_descriptions → image,
defaulting to narrative. -/
def _classify_exhibit_type (marker text : String) : String :=
  let text_upper := pyUpper text
  let marker_upper := pyUpper marker
  let hit := fun (ind : String) =>
    containsSub ind.data marker_upper.data || containsSub ind.data text_upper.data
  if TABLE_INDICATORS.any hit then "table"
  else if LEGAL_DESC_INDICATORS.any hit then "legal_descriptions"
  else if IMAGE_INDICATORS.any hit then "image"
  else "narrative"

/-- The continuation suffixes removed by `splitter._get_base_marker`,
in source order. -/
def CONTINUATION_SUFFIXES : List String :=
  ["(CONTINUED)", "(CONT.)", "(CONT)", "- CONTINUED", "CONTINUED"]

/-- `splitter._get_base_marker`: uppercase and strip the marker, then for
each continuation suffix in order, if it occurs, delete all its occurrences
(Python `str.replace`) and strip again. -/
def _get_base_marker (marker : String) : String :=
  CONTINUATION_SUFFIXES.foldl
    (fun m suffix =>
      if containsSub suffix.data m.data then
        ⟨pyStripL (replaceDel suffix.data m.data)⟩
      else m)
    (pyStrip (pyUpper marker))

/-- The region record `_consolidate_exhibits` opens for a hit:
`ExhibitInfo(marker=base_marker, start_page=exhibit.start_page,
exhibit_type=exhibit.exhibit_type)`, the remaining fields at their dataclass
defaults. -/
def freshRegion (e : ExhibitInfo) : ExhibitInfo :=
  { marker := _get_base_marker e.marker, start_page := e.start_page,
    exhibit_type := e.exhibit_type }

/-- The loop body of `splitter._consolidate_exhibits`: `current` is the
open region; a hit whose base marker equals the base marker of the open
region's marker is folded into it, anything else closes the region and
opens a new one built from the hit's base marker, start page and type. -/
def consolidateAux (current : ExhibitInfo) : List ExhibitInfo → List ExhibitInfo
  | [] => [current]
  | e :: rest =>
    if _get_base_marker current.marker = _get_base_marker e.marker then
      consolidateAux current rest
    else
      current :: consolidateAux (freshRegion e) rest

/-- `splitter._consolidate_exhibits`. -/
def _consolidate_exhibits : List ExhibitInfo → List ExhibitInfo
  | [] => []
  | e :: rest => consolidateAux (freshRegion e) rest

/-! ## `splitter.py`: find_split_points / split_document

A PDF document is modelled by the list of OCR results for its page headers:
one entry per page, `none` when OCR raises (the scan logs and skips such a
page), `some t` when OCR returns text `t`.  The scan loop of
`find_split_points` uppercases each page's text, records at most one marker
hit per page — the first marker of `EXHIBIT_MARKERS` contained in the text —
and `body_end` is set once, at the first hit; `scanLoop` below returns the
hits in page order and `find_split_points` reads `body_end` off the first
hit, which is exactly the value the set-once assignment produces. -/

/-- One page of the scan loop: the first exhibit marker contained in the
uppercased header text, if any. -/
def pageMarker (text : String) : Option String :=
  EXHIBIT_MARKERS.find? (fun m => containsSub m.data text.data)

/-- The scan loop of `find_split_points`: `idx` is the current page number;
an OCR failure (`none`) is skipped; a page whose text contains a marker
contributes one `ExhibitInfo` hit. -/
def scanLoop (idx : Nat) : List (Option String) → List ExhibitInfo
  | [] => []
  | none :: rest => scanLoop (idx + 1) rest
  | some t :: rest =>
    let text := pyUpper t
    match pageMarker text with
    | none => scanLoop (idx + 1) rest
    | some marker =>
      { marker := marker, start_page := (idx : Int),
        exhibit_type := _classify_exhibit_type marker text }
        :: scanLoop (idx + 1) rest

/-- `splitter.find_split_points` on the page model: scan the first
`min scan_pages total` pages, consolidate the per-page hits, set
`body_end` to the first hit's page (the set-once assignment in the loop)
or to the total page count when there was no hit. -/
def find_split_points (pages : List (Option String)) (scan_pages : Nat) :
    SplitPoints :=
  let total := pages.length
  let hits := scanLoop 0 (pages.take (min scan_pages total))
  let body_end_raw : Option Int := hits.head?.map (·.start_page)
  { body_end :=
      match body_end_raw with
      | none => some (total : Int)
      | some b => some b,
    exhibits := _consolidate_exhibits hits,
    total_pages := (total : Int) }

/-- The end-page assignment loop of `splitter.split_document`: each
exhibit's end page is the next exhibit's start page minus 1, the last
exhibit's end page is the document's last page; `page_count` is
`end - start + 1`. -/
def assignEnds (total : Int) : List ExhibitInfo → List ExhibitInfo
  | [] => []
  | [e] =>
    [{ e with end_page := some (total - 1),
              page_count := total - 1 - e.start_page + 1 }]
  | e :: f :: rest =>
    { e with end_page := some (f.start_page - 1),
             page_count := f.start_page - 1 - e.start_page + 1 }
      :: assignEnds total (f :: rest)

/-- The exhibit-extraction loop of `split_document`: exhibit `i` is written
to a path derived from the output directory, its index and a hash of the
source path; the path naming is abstracted by `pathFor`. -/
def setPaths (pathFor : Nat → String) (i : Nat) :
    List ExhibitInfo → List ExhibitInfo
  | [] => []
  | e :: rest => { e with path := some (pathFor i) } :: setPaths pathFor (i + 1) rest

/-- `splitter.split_document` on the page model: `total` is the page count
of the (re-opened) source document, `bodyPath`/`pathFor` abstract the
output file naming.  A body file is produced only when `body_end` is set
and positive (Python: `if split_points.body_end and split_points.body_end > 0`). -/
def split_document (total : Int) (split_points : SplitPoints)
    (bodyPath : String) (pathFor : Nat → String) : SplitResult :=
  let body : Option String × Int :=
    match split_points.body_end with
    | some be => if be > 0 then (some bodyPath, be) else (none, 0)
    | none => (none, 0)
  { body_path := body.1,
    exhibits := setPaths pathFor 0 (assignEnds total split_points.exhibits),
    original_path := "",
    total_pages := total,
    body_pages := body.2 }

/-! ## `normalizer.py`: spatial keys

`generate_spatial_key` uppercases and strips the legal description and runs
four independent extractors, each hand-compiled from its regex. -/

/-- `normalizer.SpatialKey` (the dataclass, with the composite key that
`__post_init__` computes). -/
structure SpatialKey where
  state : String
  county : String
  «section» : String
  township : String
  range : String
  aliquot : Option String := none
  key : String := ""
  deriving DecidableEq, Repr

/-- `SpatialKey.__post_init__` applied to a construction with no explicit
key: `STATE-COUNTY-SECTION-TOWNSHIP-RANGE`, with `-ALIQUOT` appended when
the aliquot is present (and non-empty: Python `if self.aliquot`). -/
def mkSpatialKey (st co se tw ra : String) (al : Option String) : SpatialKey :=
  { state := st, county := co, «section» := se, township := tw, range := ra,
    aliquot := al,
    key := st ++ "-" ++ co ++ "-" ++ se ++ "-" ++ tw ++ "-" ++ ra ++
      (match al with
       | some a => if a ≠ "" then "-" ++ a else ""
       | none => "") }

/-- `normalizer.STATE_ABBREVIATIONS`, in source (insertion) order. -/
def STATE_ABBREVIATIONS : List (String × String) :=
  [("ALABAMA", "AL"), ("ALASKA", "AK"), ("ARIZONA", "AZ"), ("ARKANSAS", "AR"),
   ("CALIFORNIA", "CA"), ("COLORADO", "CO"), ("CONNECTICUT", "CT"),
   ("DELAWARE", "DE"), ("FLORIDA", "FL"), ("GEORGIA", "GA"), ("HAWAII", "HI"),
   ("IDAHO", "ID"), ("ILLINOIS", "IL"), ("INDIANA", "IN"), ("IOWA", "IA"),
   ("KANSAS", "KS"), ("KENTUCKY", "KY"), ("LOUISIANA", "LA"), ("MAINE", "ME"),
   ("MARYLAND", "MD"), ("MASSACHUSETTS", "MA"), ("MICHIGAN", "MI"),
   ("MINNESOTA", "MN"), ("MISSISSIPPI", "MS"), ("MISSOURI", "MO"),
   ("MONTANA", "MT"), ("NEBRASKA", "NE"), ("NEVADA", "NV"),
   ("NEW HAMPSHIRE", "NH"), ("NEW JERSEY", "NJ"), ("NEW MEXICO", "NM"),
   ("NEW YORK", "NY"), ("NORTH CAROLINA", "NC"), ("NORTH DAKOTA", "ND"),
   ("OHIO", "OH"), ("OKLAHOMA", "OK"), ("OREGON", "OR"),
   ("PENNSYLVANIA", "PA"), ("RHODE ISLAND", "RI"), ("SOUTH CAROLINA", "SC"),
   ("SOUTH DAKOTA", "SD"), ("TENNESSEE", "TN"), ("TEXAS", "TX"),
   ("UTAH", "UT"), ("VERMONT", "VT"), ("VIRGINIA", "VA"),
   ("WASHINGTON", "WA"), ("WEST VIRGINIA", "WV"), ("WISCONSIN", "WI"),
   ("WYOMING", "WY")]

/-- The two-letter alternation of `_extract_state`'s fallback regex, in
regex order.  Note that the source regex omits `IN` (Indiana). -/
def STATE_ABBREV_ALTERNATION : List String :=
  ["AL", "AK", "AZ", "AR", "CA", "CO", "CT", "DE", "FL", "GA", "HI", "ID",
   "IL", "IA", "KS", "KY", "LA", "ME", "MD", "MA", "MI", "MN", "MS", "MO",
   "MT", "NE", "NV", "NH", "NJ", "NM", "NY", "NC", "ND", "OH", "OK", "OR",
   "PA", "RI", "SC", "SD", "TN", "TX", "UT", "VT", "VA", "WA", "WV", "WI",
   "WY"]

/-- The right context `(?:\s*$|\s*,|\s+\d)` of the abbreviation regex.
`\s*$` holds exactly when the remainder is all whitespace (Python `$` also
matches just before a trailing newline, which is itself whitespace);
`\s*,` and `\s+\d` are deterministic because `,` and digits are not
whitespace, so the greedy run is forced. -/
def abbrevRightCtx (cs : List Char) : Bool :=
  cs.all isSpaceChar ||
  (match cs.dropWhile isSpaceChar with
   | ',' :: _ => true
   | _ => false) ||
  (match cs with
   | c :: _ =>
     isSpaceChar c &&
       (match cs.dropWhile isSpaceChar with
        | d :: _ => d.isDigit
        | [] => false)
   | [] => false)

/-- Try the abbreviation alternation at one position (after the left
delimiter has been consumed): the first alternative whose literal matches
and whose right context holds. -/
def tryAbbrev (cs : List Char) : Option String :=
  STATE_ABBREV_ALTERNATION.find?
    (fun ab => ab.data.isPrefixOf cs && abbrevRightCtx (cs.drop ab.data.length))

/-- The left-to-right search of the abbreviation regex
`(?:,\s*|\s+)(..alternation..)(?:\s*$|\s*,|\s+\d)`: at a comma, consume it
and the following whitespace run; at a whitespace character, consume the
whitespace run; the greedy `\s*`/`\s+` runs are forced because every
alternative starts with a letter. -/
def abbrevSearch : List Char → Option String
  | [] => none
  | c :: rest =>
    if c = ',' then
      match tryAbbrev (rest.dropWhile isSpaceChar) with
      | some a => some a
      | none => abbrevSearch rest
    else if isSpaceChar c then
      match tryAbbrev ((c :: rest).dropWhile isSpaceChar) with
      | some a => some a
      | none => abbrevSearch rest
    else abbrevSearch rest

/-- `normalizer._extract_state`: full state names first, in dictionary
order; then the delimited two-letter abbreviation search. -/
def _extract_state (text : String) : Option String :=
  match STATE_ABBREVIATIONS.find? (fun p => containsSub p.1.data text.data) with
  | some p => some p.2
  | none => abbrevSearch text.data

/-- One position of the county regex `(\w+(?:\s+\w+)?)\s+(?:COUNTY|PARISH)`.
The greedy `\w+`/`\s+` runs are forced (a shorter run leaves a character of
the same class in a position that requires the other class); the optional
group is tried greedily first, exactly as Python does. -/
def countyAttempt (cs : List Char) : Option (List Char) :=
  match cs with
  | [] => none
  | c :: _ =>
    if isWordChar c then
      let r1 := cs.takeWhile isWordChar
      let rest1 := cs.dropWhile isWordChar
      let ws1 := rest1.takeWhile isSpaceChar
      let rest2 := rest1.dropWhile isSpaceChar
      let branchA : Option (List Char) :=
        if ws1 ≠ [] then
          let r2 := rest2.takeWhile isWordChar
          let rest3 := rest2.dropWhile isWordChar
          if r2 ≠ [] then
            let ws2 := rest3.takeWhile isSpaceChar
            let rest4 := rest3.dropWhile isSpaceChar
            if ws2 ≠ [] &&
                ("COUNTY".data.isPrefixOf rest4 || "PARISH".data.isPrefixOf rest4) then
              some (r1 ++ ws1 ++ r2)
            else none
          else none
        else none
      match branchA with
      | some g => some g
      | none =>
        if ws1 ≠ [] &&
            ("COUNTY".data.isPrefixOf rest2 || "PARISH".data.isPrefixOf rest2) then
          some r1
        else none
    else none

/-- Leftmost search for the county pattern. -/
def countySearch : List Char → Option (List Char)
  | [] => none
  | c :: rest =>
    match countyAttempt (c :: rest) with
    | some g => some g
    | none => countySearch rest

/-- `normalizer._extract_county`. -/
def _extract_county (text : String) : Option String :=
  (countySearch text.data).map (fun g => pyStrip ⟨g⟩)

/-! ### `_extract_section_township_range`: the five pattern families -/

/-- Generic leftmost `re.search`: try the compiled attempt at every
position, left to right. -/
def scanAll (f : List Char → Option α) : List Char → Option α
  | [] => f []
  | c :: rest =>
    match f (c :: rest) with
    | some r => some r
    | none => scanAll f rest

/-- A lazy gap `.*?` followed by the rest of a pattern: try the attempt at
the current position, else consume one character — which `.` forbids to be
a newline — and continue. -/
def scanNoNl (f : List Char → Option α) : List Char → Option α
  | [] => f []
  | c :: rest =>
    match f (c :: rest) with
    | some r => some r
    | none => if c = '\n' then none else scanNoNl f rest

/-- `\s+` followed by a token that cannot start with whitespace: the greedy
run is forced. -/
def parseWs1 : List Char → Option (List Char)
  | c :: rest =>
    if isSpaceChar c then some (rest.dropWhile isSpaceChar) else none
  | [] => none

/-- A greedy `\d+` followed by a non-digit: the maximal run is forced. -/
def parseDigits (cs : List Char) : Option (List Char × List Char) :=
  let d := cs.takeWhile Char.isDigit
  if d = [] then none else some (d, cs.dropWhile Char.isDigit)

/-- First letter of the `(N|NORTH|S|SOUTH)` alternation: the single letter
is the first alternative, so the captured group always starts (and, for the
single-letter alternative that Python prefers, ends) with it; the source
keeps only `group[0]`. -/
def townshipDir (c : Char) : Bool := c = 'N' || c = 'S'

/-- First letter of the `(W|WEST|E|EAST)` alternation. -/
def rangeDir (c : Char) : Bool := c = 'W' || c = 'E'

/-- `[-,\s]` of patterns 2 and 3. -/
def isSepChar (c : Char) : Bool := c = '-' || c = ',' || isSpaceChar c

/-- Pattern 1 at one position:
`SECTION\s+(\d+).*?TOWNSHIP\s+(\d+)\s*(N|NORTH|S|SOUTH).*?RANGE\s+(\d+)\s*(W|WEST|E|EAST)`. -/
def p1Attempt (cs : List Char) : Option (String × String × String) := do
  let rest0 ← if "SECTION".data.isPrefixOf cs then some (cs.drop 7) else none
  let rest1 ← parseWs1 rest0
  let (d1, rest2) ← parseDigits rest1
  scanNoNl
    (fun cs2 => do
      let r0 ← if "TOWNSHIP".data.isPrefixOf cs2 then some (cs2.drop 8) else none
      let r1 ← parseWs1 r0
      let (d2, r2) ← parseDigits r1
      let r3 := r2.dropWhile isSpaceChar
      match r3 with
      | c :: r4 =>
        if townshipDir c then
          scanNoNl
            (fun cs3 => do
              let s0 ← if "RANGE".data.isPrefixOf cs3 then some (cs3.drop 5) else none
              let s1 ← parseWs1 s0
              let (d3, s2) ← parseDigits s1
              let s3 := s2.dropWhile isSpaceChar
              match s3 with
              | e :: _ =>
                if rangeDir e then some (⟨d1⟩, ⟨d2 ++ [c]⟩, ⟨d3 ++ [e]⟩)
                else none
              | [] => none)
            r4
        else none
      | [] => none)
    rest2

/-- The common tail of patterns 2 and 3 starting at the township digits:
`(\d+[NS])[-,\s]+R?(\d+[EW])` (with `reqR` saying whether the `R` is
optional, pattern 2, or required, pattern 3). -/
def townshipRangeTail (optionalR : Bool) (cs : List Char) :
    Option (String × String × List Char) := do
  let (d2, r5) ← parseDigits cs
  match r5 with
  | c :: r6 =>
    if townshipDir c then do
      let _ ← match r6 with
              | s :: _ => if isSepChar s then some () else none
              | [] => none
      let r7 := r6.dropWhile isSepChar
      let r8 ← match r7 with
               | 'R' :: t => some t
               | _ => if optionalR then some r7 else none
      let (d3, r9) ← parseDigits r8
      match r9 with
      | e :: r10 =>
        if rangeDir e then some (⟨d2 ++ [c]⟩, ⟨d3 ++ [e]⟩, r10) else none
      | [] => none
    else none
  | [] => none

/-- Pattern 2 at one position:
`S(?:EC(?:TION)?)?\s*(\d+)[-,\s]+T?(\d+[NS])[-,\s]+R?(\d+[EW])`.
The optional `EC(TION)?` is tried greedily, longest first; the optional `T`
is consumed when present (backtracking to the empty alternative would put
the `T` where a digit is required, which always fails). -/
def p2Attempt (cs : List Char) : Option (String × String × String) :=
  match cs with
  | 'S' :: rest =>
    let tryFrom : List Char → Option (String × String × String) := fun r => do
      let r1 := r.dropWhile isSpaceChar
      let (d1, r2) ← parseDigits r1
      let _ ← match r2 with
              | s :: _ => if isSepChar s then some () else none
              | [] => none
      let r3 := r2.dropWhile isSepChar
      let r4 := match r3 with
                | 'T' :: t => t
                | _ => r3
      let (tw, ra, _) ← townshipRangeTail true r4
      some (⟨d1⟩, tw, ra)
    (if "ECTION".data.isPrefixOf rest then tryFrom (rest.drop 6) else none) <|>
    (if "EC".data.isPrefixOf rest then tryFrom (rest.drop 2) else none) <|>
    tryFrom rest
  | _ => none

/-- The section part `S(?:EC(?:TION)?)?\s*(\d+)` of patterns 3 and 4, at
one position. -/
def secAttempt (cs : List Char) : Option String :=
  match cs with
  | 'S' :: rest =>
    let secFrom : List Char → Option String := fun r => do
      let r1 := r.dropWhile isSpaceChar
      let (d1, _) ← parseDigits r1
      some ⟨d1⟩
    (if "ECTION".data.isPrefixOf rest then secFrom (rest.drop 6) else none) <|>
    (if "EC".data.isPrefixOf rest then secFrom (rest.drop 2) else none) <|>
    secFrom rest
  | _ => none

/-- The `T(\d+[NS])[-,\s]+R(\d+[EW])` part of patterns 3 and 4, at one
position (the `R` is required here). -/
def trAttempt (cs : List Char) : Option (String × String × List Char) :=
  match cs with
  | 'T' :: rest => townshipRangeTail false rest
  | _ => none

/-- Pattern 3 at one position:
`T(\d+[NS])[-,\s]+R(\d+[EW]).*?S(?:EC(?:TION)?)?\s*(\d+)`. -/
def p3Attempt (cs : List Char) : Option (String × String × String) := do
  let (tw, ra, rest) ← trAttempt cs
  let sec ← scanNoNl secAttempt rest
  some (sec, tw, ra)

/-- Pattern 4: `T(\d+[NS])[-,\s]+R(\d+[EW])` searched anywhere, with an
independent secondary search for the section; the source falls through to
pattern 5 when the secondary search fails. -/
def p4Search (cs : List Char) : Option (String × String × String) := do
  let (tw, ra, _) ← scanAll trAttempt cs
  let sec ← scanAll secAttempt cs
  some (sec, tw, ra)

/-- Pattern 5 at one position: `(\d+)-(\d+[NS])-(\d+[EW])`. -/
def p5Attempt (cs : List Char) : Option (String × String × String) := do
  let (d1, r1) ← parseDigits cs
  let r2 ← match r1 with
           | '-' :: t => some t
           | _ => none
  let (d2, r3) ← parseDigits r2
  match r3 with
  | c :: r4 =>
    if townshipDir c then do
      let r5 ← match r4 with
               | '-' :: t => some t
               | _ => none
      let (d3, r6) ← parseDigits r5
      match r6 with
      | e :: _ =>
        if rangeDir e then some (⟨d1⟩, ⟨d2 ++ [c]⟩, ⟨d3 ++ [e]⟩) else none
      | [] => none
    else none
  | [] => none

/-- `normalizer._extract_section_township_range`: the five ordered pattern
families; the first full match wins, and no match at all yields
`(none, none, none)`. -/
def _extract_section_township_range (text : String) :
    Option String × Option String × Option String :=
  match scanAll p1Attempt text.data <|> scanAll p2Attempt text.data <|>
        scanAll p3Attempt text.data <|> p4Search text.data <|>
        scanAll p5Attempt text.data with
  | some (s, t, r) => (some s, some t, some r)
  | none => (none, none, none)

/-! ### `_extract_aliquot` -/

/-- The fractional-aliquot tail `\s*[/\\]?\s*([24])` at one position:
returns the digit and the number of characters consumed.  The greedy
whitespace runs and the optional slash are forced because the digit is
neither whitespace nor a slash. -/
def aliquotTail (cs : List Char) : Option (Char × Nat) :=
  let w1 := cs.takeWhile isSpaceChar
  let r1 := cs.dropWhile isSpaceChar
  let (slashN, r2) :=
    match r1 with
    | '/' :: t => (1, t)
    | '\\' :: t => (1, t)
    | _ => (0, r1)
  let w2 := r2.takeWhile isSpaceChar
  let r3 := r2.dropWhile isSpaceChar
  match r3 with
  | c :: _ =>
    if c = '2' || c = '4' then some (c, w1.length + slashN + w2.length + 1)
    else none
  | [] => none

/-- The direction alternation `(N|S|E|W|NE|NW|SE|SW)` at one position —
single letters are tried first, exactly as in the source pattern — followed
by the fractional tail.  Returns the normalized part (`direction ++ digit`)
and the number of characters consumed after the first one. -/
def fracAttempt (c : Char) (rest : List Char) : Option (String × Nat) :=
  (if c = 'N' || c = 'S' || c = 'E' || c = 'W' then
     (aliquotTail rest).map (fun p => (⟨[c, p.1]⟩, p.2))
   else none) <|>
  (match rest with
   | c2 :: rest2 =>
     if (c = 'N' || c = 'S') && (c2 = 'E' || c2 = 'W') then
       (aliquotTail rest2).map (fun p => (⟨[c, c2, p.1]⟩, p.2 + 1))
     else none
   | [] => none)

/-- `re.finditer` over the fractional-aliquot pattern: non-overlapping
matches, left to right.  `fuel` bounds the recursion structurally (so that
the kernel can evaluate it); every step consumes at least one character,
so the string's length is always enough fuel. -/
def aliquotScanFuel : Nat → List Char → List String
  | 0, _ => []
  | _ + 1, [] => []
  | fuel + 1, c :: rest =>
    match fracAttempt c rest with
    | some pn => pn.1 :: aliquotScanFuel fuel (rest.drop pn.2)
    | none => aliquotScanFuel fuel rest

/-- `re.finditer` over the fractional-aliquot pattern. -/
def aliquotScan (cs : List Char) : List String :=
  aliquotScanFuel cs.length cs

/-- One spelled-out aliquot pattern (for instance
`NORTH\s*EAST\s*(?:QUARTER|1/4)`) at one position: each word is followed by
a greedy `\s*` (forced, since neither the next word nor the tails start
with whitespace), ending in one of the tail alternatives. -/
def spelledSeq : List String → List String → List Char → Bool
  | [], tails, cs => tails.any (fun t => t.data.isPrefixOf cs)
  | w :: ws, tails, cs =>
    if w.data.isPrefixOf cs then
      spelledSeq ws tails ((cs.drop w.data.length).dropWhile isSpaceChar)
    else false

/-- `re.search` existence for a Bool attempt. -/
def existsPos (p : List Char → Bool) : List Char → Bool
  | [] => p []
  | c :: rest => p (c :: rest) || existsPos p rest

/-- `normalizer._extract_aliquot`'s spelled-out patterns, in source order:
(word sequence, tail alternatives, replacement). -/
def SPELLED_ALIQUOT : List ((List String × List String) × String) :=
  [((["NORTH"], ["HALF", "1/2"]), "N2"),
   ((["SOUTH"], ["HALF", "1/2"]), "S2"),
   ((["EAST"], ["HALF", "1/2"]), "E2"),
   ((["WEST"], ["HALF", "1/2"]), "W2"),
   ((["NORTH", "EAST"], ["QUARTER", "1/4"]), "NE4"),
   ((["NORTH", "WEST"], ["QUARTER", "1/4"]), "NW4"),
   ((["SOUTH", "EAST"], ["QUARTER", "1/4"]), "SE4"),
   ((["SOUTH", "WEST"], ["QUARTER", "1/4"]), "SW4")]

/-- Insertion into a sorted list of strings (code-point lexicographic
order, the order Python `sorted` uses). -/
def insertSorted (x : String) : List String → List String
  | [] => [x]
  | y :: rest => if x < y then x :: y :: rest else y :: insertSorted x rest

/-- Insertion sort for strings, the `sorted(...)` of the source. -/
def sortStrings : List String → List String
  | [] => []
  | x :: rest => insertSorted x (sortStrings rest)

/-- `normalizer._extract_aliquot`: collect fractional parts, then append
each spelled-out replacement not already present, then join the sorted
deduplicated parts with hyphens. -/
def _extract_aliquot (text : String) : Option String :=
  let base := aliquotScan text.data
  let parts :=
    SPELLED_ALIQUOT.foldl
      (fun acc pr =>
        if existsPos (spelledSeq pr.1.1 pr.1.2) text.data && !(acc.contains pr.2) then
          acc ++ [pr.2]
        else acc)
      base
  if parts = [] then none
  else some (String.intercalate "-" (sortStrings parts.eraseDups))

/-! ### `generate_spatial_key` -/

/-- `normalizer.generate_spatial_key`: uppercase and strip, run the four
extractors, and require all five of state, county, section, township,
range to be present and non-empty (Python truthiness in
`if not all([...])`); the aliquot is optional. -/
def generate_spatial_key (legal_desc : String) : Option SpatialKey :=
  if legal_desc = "" then none
  else
    let text := pyStrip (pyUpper legal_desc)
    let state := _extract_state text
    let county := _extract_county text
    let str3 := _extract_section_township_range text
    let aliquot := _extract_aliquot text
    match state, county, str3.1, str3.2.1, str3.2.2 with
    | some st, some co, some se, some tw, some ra =>
      if st ≠ "" && co ≠ "" && se ≠ "" && tw ≠ "" && ra ≠ "" then
        some (mkSpatialKey st co se tw ra aliquot)
      else none
    | _, _, _, _, _ => none

/-! ## `normalizer.py`: party names

Every pattern in `ENTITY_SUFFIXES` has the shape `,?\s*BODY$` where `BODY`
is a sequence of literals, optional dots (`\.?`), mandatory whitespace
(`\s+`) and — for the aka/fka/nka/dba family — a final `.*` reaching `$`.
`PTok` is that token language and `matchToks` its matcher; a match must end
at `$`, which in Python is the end of the string or the position just
before a trailing newline, so the matcher returns the leftover (`[]` or
`['\n']`) that the substitution keeps. -/

/-- Tokens of the suffix-pattern bodies. -/
inductive PTok
  | lit (s : String)
  | optDot
  | ws1
  | anyToEnd
  deriving DecidableEq

/-- `$`: end of string or just before a trailing newline; returns the
leftover the substitution keeps. -/
def atDollar (cs : List Char) : Option (List Char) :=
  if cs = [] then some []
  else if cs = ['\n'] then some ['\n']
  else none

/-- `.*$`: `.` cannot cross a newline, so this matches exactly when the
remainder contains no newline, or is a body without newlines followed by a
single final newline (Python's greedy `.*` consumes up to `$`, preferring
the end-of-string position). -/
def anyToEndMatch (cs : List Char) : Option (List Char) :=
  if '\n' ∈ cs then
    if '\n' ∈ cs.dropLast then none
    else if cs.getLast? = some '\n' then some ['\n'] else none
  else some []

/-- Match a token sequence against the remainder, anchored at `$`.
`ws1` is a greedy `\s+`; in every suffix body it is followed by a literal
starting with a letter or by `.*$`, so consuming the maximal whitespace run
is equivalent to Python's backtracking (see the module comment). `optDot`
tries the dot first, as Python's greedy `?` does, and falls back. -/
def matchToks : List PTok → List Char → Option (List Char)
  | [], cs => atDollar cs
  | .lit l :: ts, cs =>
    if l.data.isPrefixOf cs then matchToks ts (cs.drop l.data.length) else none
  | .optDot :: ts, cs =>
    match cs with
    | '.' :: rest =>
      match matchToks ts rest with
      | some l => some l
      | none => matchToks ts cs
    | _ => matchToks ts cs
  | .ws1 :: ts, cs =>
    match cs with
    | c :: rest =>
      if isSpaceChar c then matchToks ts (rest.dropWhile isSpaceChar) else none
    | [] => none
  | .anyToEnd :: ts, cs =>
    if ts = [] then anyToEndMatch cs else none

/-- One position of `re.sub(',?\s*BODY$', '', text)`: consume an optional
leading comma and then the greedy `\s*` run (forced: every body starts with
a letter), and run the body matcher. -/
def attemptSuffix (toks : List PTok) (cs : List Char) : Option (List Char) :=
  matchToks toks
    (match cs with
     | ',' :: r => r.dropWhile isSpaceChar
     | _ => cs.dropWhile isSpaceChar)

/-- Leftmost substitution for one suffix pattern: at the first position
where the pattern matches, everything from there to `$` is removed (the
leftover — at most a trailing newline — is kept); since every pattern is
anchored at `$`, there is at most one match, so this is the full `re.sub`.
Returns `none` when the pattern does not occur. -/
def subSuffix (toks : List PTok) : List Char → Option (List Char)
  | [] =>
    match attemptSuffix toks [] with
    | some l => some l
    | none => none
  | c :: rest =>
    match attemptSuffix toks (c :: rest) with
    | some l => some l
    | none => (subSuffix toks rest).map (fun r => c :: r)

/-- `re.sub(pat, '', text)` for one suffix pattern (identity when the
pattern does not occur). -/
def applySuffix (toks : List PTok) (cs : List Char) : List Char :=
  match subSuffix toks cs with
  | some r => r
  | none => cs

/-- `normalizer.ENTITY_SUFFIXES`, in source order, as token bodies of
`,?\s*BODY$`. -/
def ENTITY_SUFFIXES : List (List PTok) :=
  [[.lit "LIMITED", .ws1, .lit "LIABILITY", .ws1, .lit "COMPANY"],
   [.lit "LIMITED", .ws1, .lit "PARTNERSHIP"],
   [.lit "LIMITED", .ws1, .lit "LIABILITY", .ws1, .lit "PARTNERSHIP"],
   [.lit "INCORPORATED"],
   [.lit "CORPORATION"],
   [.lit "COMPANY"],
   [.lit "LIMITED"],
   [.lit "L", .optDot, .lit "L", .optDot, .lit "C", .optDot],
   [.lit "LLC", .optDot],
   [.lit "L", .optDot, .lit "L", .optDot, .lit "P", .optDot],
   [.lit "LLP", .optDot],
   [.lit "L", .optDot, .lit "P", .optDot],
   [.lit "LP", .optDot],
   [.lit "P", .optDot, .lit "L", .optDot, .lit "L", .optDot, .lit "C", .optDot],
   [.lit "PLLC", .optDot],
   [.lit "INC", .optDot],
   [.lit "CORP", .optDot],
   [.lit "LTD", .optDot],
   [.lit "P", .optDot, .lit "C", .optDot],
   [.lit "PC", .optDot],
   [.lit "CO", .optDot],
   [.lit "ET", .ws1, .lit "AL", .optDot],
   [.lit "ET", .ws1, .lit "UX", .optDot],
   [.lit "ET", .ws1, .lit "VIR", .optDot],
   [.lit "A/K/A", .ws1, .anyToEnd],
   [.lit "AKA", .ws1, .anyToEnd],
   [.lit "F/K/A", .ws1, .anyToEnd],
   [.lit "FKA", .ws1, .anyToEnd],
   [.lit "N/K/A", .ws1, .anyToEnd],
   [.lit "D/B/A", .ws1, .anyToEnd],
   [.lit "DBA", .ws1, .anyToEnd]]

/-- `re.sub(r"[^\w\s-]", " ", text)`: replace every character that is not a
word character, whitespace or a hyphen by a space. -/
def removePunct (cs : List Char) : List Char :=
  cs.map (fun c => if isWordChar c || isSpaceChar c || c = '-' then c else ' ')

/-- `re.sub(r"\s+", " ", text)`: collapse every whitespace run to a single
space.  `prevSpace` says whether the previous character belonged to a run
already collapsed. -/
def collapseWsAux (prevSpace : Bool) : List Char → List Char
  | [] => []
  | c :: rest =>
    if isSpaceChar c then
      if prevSpace then collapseWsAux true rest
      else ' ' :: collapseWsAux true rest
    else c :: collapseWsAux false rest

/-- `re.sub(r"\s+", " ", text).strip()`. -/
def collapseStrip (cs : List Char) : List Char :=
  pyStripL (collapseWsAux false cs)

/-- `re.sub(r"\b[A-Z]\b", "", text)`: remove every standalone uppercase
letter.  The word boundaries are evaluated on the original string, so the
left context `prevNonword` is the non-word-ness of the previous original
character (true at the start of the string). -/
def headNonword : List Char → Bool
  | [] => true
  | d :: _ => !isWordChar d

def removeSingles (prevNonword : Bool) : List Char → List Char
  | [] => []
  | c :: rest =>
    if isUpperAZ c && prevNonword && headNonword rest then
      removeSingles (!isWordChar c) rest
    else c :: removeSingles (!isWordChar c) rest

/-! ### `_detect_entity_type` -/

/-- `normalizer.NormalizedParty`. -/
structure NormalizedParty where
  original_name : String
  normalized_name : String
  entity_type : Option String := none
  deriving DecidableEq, Repr

/-- `re.search` with a one-character look-behind, for word-boundary
patterns. -/
def existsPosPrev (p : Option Char → List Char → Bool) :
    Option Char → List Char → Bool
  | prev, [] => p prev []
  | prev, c :: rest => p prev (c :: rest) || existsPosPrev p (some c) rest

/-- `\bW\b`: previous character (if any) is not a word character, the
literal, next character (if any) is not a word character. -/
def wordBoundaryHit (w : String) (cs : List Char) : Bool :=
  existsPosPrev
    (fun prev cs =>
      (match prev with
       | none => true
       | some pc => !isWordChar pc) &&
      w.data.isPrefixOf cs &&
      (match cs.drop w.data.length with
       | [] => true
       | d :: _ => !isWordChar d))
    none cs

/-- Letters with an optional dot after each (`L\.?L\.?C\.?` and friends):
the greedy dots are forced because neither the following letter nor the
right context `(?:\s|$|,)` can be a dot. -/
def dottedSeq (letters : List Char) (cs : List Char) : Option (List Char) :=
  match letters, cs with
  | [], _ => some cs
  | l :: ls, c :: rest =>
    if c = l then
      dottedSeq ls
        (match rest with
         | '.' :: r => r
         | _ => rest)
    else none
  | _ :: _, [] => none

/-- The right context `(?:\s|$|,)`: one whitespace character, a comma, or
`$` (end of string; the before-trailing-newline case of `$` is subsumed by
the whitespace alternative). -/
def wsDollarComma (cs : List Char) : Bool :=
  match cs with
  | [] => true
  | c :: _ => isSpaceChar c || c = ','

/-- `re.search(r"X\.?Y\.?...(?:\s|$|,)")` for a dotted letter sequence. -/
def dottedCtxHit (letters : List Char) (cs : List Char) : Bool :=
  existsPos
    (fun cs =>
      match dottedSeq letters cs with
      | some rest => wsDollarComma rest
      | none => false)
    cs

/-- `re.search(r"LIMITED\s+PARTNERSHIP")`. -/
def limitedPartnershipHit (cs : List Char) : Bool :=
  existsPos
    (fun cs =>
      if "LIMITED".data.isPrefixOf cs then
        match parseWs1 (cs.drop 7) with
        | some r => "PARTNERSHIP".data.isPrefixOf r
        | none => false
      else false)
    cs

/-- `re.search(r"\bCO\.(?:\s|$|,)")`: the dot is mandatory here. -/
def coDotHit (cs : List Char) : Bool :=
  existsPosPrev
    (fun prev cs =>
      (match prev with
       | none => true
       | some pc => !isWordChar pc) &&
      "CO.".data.isPrefixOf cs &&
      wsDollarComma (cs.drop 3))
    none cs

/-- One alternative of `\b(ET\s+UX|ET\s+VIR|ET\s+AL)\b`. -/
def etMarkerHit (tail : String) (cs : List Char) : Bool :=
  existsPosPrev
    (fun prev cs =>
      (match prev with
       | none => true
       | some pc => !isWordChar pc) &&
      (match cs with
       | 'E' :: 'T' :: r =>
         match parseWs1 r with
         | some r2 =>
           tail.data.isPrefixOf r2 &&
             (match r2.drop tail.data.length with
              | [] => true
              | d :: _ => !isWordChar d)
         | none => false
       | _ => false))
    none cs

/-- The character class `[A-Z\s,.\'-]` of the simple-name fallback. -/
def indivClassChar (c : Char) : Bool :=
  isUpperAZ c || isSpaceChar c || c = ',' || c = '.' || c = '\'' || c = '-'

/-- Word count of Python `text.replace(",", " ").split()`. -/
def countWords (inWord : Bool) : List Char → Nat
  | [] => 0
  | c :: rest =>
    if isSpaceChar c || c = ',' then countWords false rest
    else (if inWord then 0 else 1) + countWords true rest

/-- `normalizer._detect_entity_type`: the fixed cascade of searches over
the re-uppercased name. -/
def _detect_entity_type (text : String) : Option String :=
  let tu := (pyUpper text).data
  if dottedCtxHit ['L', 'L', 'C'] tu || wordBoundaryHit "LLC" tu then
    some "llc"
  else if dottedCtxHit ['L', 'P'] tu || wordBoundaryHit "LP" tu then
    some "limited_partnership"
  else if limitedPartnershipHit tu then
    some "limited_partnership"
  else if dottedCtxHit ['L', 'L', 'P'] tu || wordBoundaryHit "LLP" tu then
    some "llp"
  else if wordBoundaryHit "INC" tu || wordBoundaryHit "INCORPORATED" tu ||
      wordBoundaryHit "CORP" tu || wordBoundaryHit "CORPORATION" tu then
    some "corporation"
  else if dottedCtxHit ['P', 'L', 'L', 'C'] tu || wordBoundaryHit "PLLC" tu then
    some "pllc"
  else if coDotHit tu && !containsSub "COMPANY".data tu then
    some "company"
  else if wordBoundaryHit "TRUST" tu then
    some "trust"
  else if wordBoundaryHit "ESTATE" tu then
    some "estate"
  else if etMarkerHit "UX" tu || etMarkerHit "VIR" tu || etMarkerHit "AL" tu then
    some "individual"
  else if tu ≠ [] && tu.all indivClassChar && countWords false tu ≤ 4 then
    some "individual"
  else none

/-- `normalizer.normalize_party_name`: strip and uppercase, detect the
entity type on the unstripped uppercased name, apply the ordered suffix
substitutions, replace punctuation by spaces, collapse whitespace, remove
standalone single letters (word boundaries evaluated on the string before
removal), and collapse again. -/
def normalize_party_name (name : String) : NormalizedParty :=
  if name = "" then
    { original_name := "", normalized_name := "", entity_type := none }
  else
    let original := pyStrip name
    let text0 := pyUpper original
    let entity_type := _detect_entity_type text0
    let t1 := ENTITY_SUFFIXES.foldl (fun t pat => applySuffix pat t) text0.data
    let t2 := removePunct t1
    let t3 := collapseStrip t2
    let t4 := removeSingles true t3
    let t5 := collapseStrip t4
    { original_name := original, normalized_name := ⟨t5⟩,
      entity_type := entity_type }

/-! ### Output invariants used by the idempotence analysis -/

/-- Every whitespace character is a plain space not preceded (inside the
state `prev`) by another whitespace character: the collapsed-whitespace
invariant of `re.sub(r"\s+", " ", ...)` output. -/
def noRun (prev : Bool) : List Char → Bool
  | [] => true
  | c :: rest =>
    (!(isSpaceChar c) || (c = ' ' && !prev)) && noRun (isSpaceChar c) rest

/-- The last character (if any) is not whitespace. -/
def noTrailWs : List Char → Bool
  | [] => true
  | c :: rest => if rest = [] then !(isSpaceChar c) else noTrailWs rest

/-- The first character (if any) is not whitespace. -/
def headNotSpace : List Char → Bool
  | [] => true
  | c :: _ => !(isSpaceChar c)

/-- No standalone uppercase letter remains: at each position, the deletion
test of `removeSingles` (with the matching original-context state) fails. -/
def nSingle (prevNonword : Bool) : List Char → Bool
  | [] => true
  | c :: rest =>
    (!(isUpperAZ c && prevNonword && headNonword rest)) &&
      nSingle (!isWordChar c) rest

/-- Every character is fixed by `Char.toUpper` (output of `str.upper()`). -/
def upperFixedAll (l : List Char) : Prop := ∀ c ∈ l, c.toUpper = c

/-- Every character survives `removePunct`: word character, whitespace or
hyphen. -/
def allowedAll (l : List Char) : Prop :=
  ∀ c ∈ l, (isWordChar c || isSpaceChar c || c = '-') = true

/-! ## Theorems -/

set_option maxRecDepth 20000

/-- C6: `generate_spatial_key` produces key `ND-WILLIAMS-15-154N-97W-NW4`
for the Williams County description, key `OK-GARFIELD-14-3N-4W` with no
aliquot for the Garfield County description, and no key at all for
"Some land in Oklahoma". -/
theorem C6_spatial_key_examples :
    (generate_spatial_key
        "NW/4 of Section 15, Township 154 North, Range 97 West, Williams County, ND").map
        SpatialKey.key = some "ND-WILLIAMS-15-154N-97W-NW4" ∧
    (generate_spatial_key "Sec 14-3N-4W, Garfield County, OK").map
        SpatialKey.key = some "OK-GARFIELD-14-3N-4W" ∧
    (generate_spatial_key "Sec 14-3N-4W, Garfield County, OK").map
        SpatialKey.aliquot = some none ∧
    generate_spatial_key "Some land in Oklahoma" = none := by
  decide

/-- C9: the normalization functions are total in the embedding:
`generate_spatial_key` yields either a key or the explicit absent result,
`normalize_party_name` always yields a `NormalizedParty` whose original
name is the stripped input, and the empty string yields the empty result
(empty normalized name, no entity type) rather than an error. -/
theorem C9_total (s : String) :
    (generate_spatial_key s = none ∨ ∃ k, generate_spatial_key s = some k) ∧
    (∃ p, normalize_party_name s = p ∧
       p.original_name = (if s = "" then "" else pyStrip s)) ∧
    normalize_party_name "" =
      { original_name := "", normalized_name := "", entity_type := none } ∧
    generate_spatial_key "" = none := by
  refine ⟨?_, ?_, by decide, by decide⟩
  · cases generate_spatial_key s with
    | none => exact Or.inl rfl
    | some k => exact Or.inr ⟨k, rfl⟩
  · refine ⟨normalize_party_name s, rfl, ?_⟩
    by_cases h : s = "" <;> simp [normalize_party_name, h]

/-- C9 witness: instantiation at a concrete unparseable input. -/
theorem C9_total_witness :
    (generate_spatial_key "???" = none ∨
      ∃ k, generate_spatial_key "???" = some k) ∧
    (∃ p, normalize_party_name "???" = p ∧
       p.original_name = (if "???" = "" then "" else pyStrip "???")) ∧
    normalize_party_name "" =
      { original_name := "", normalized_name := "", entity_type := none } ∧
    generate_spatial_key "" = none :=
  C9_total "???"

/-- C2 counterexample: two consecutive hits with the identical marker
"CONTINCONTINUEDUED" form a single block of one distinct base marker
("CONTINUED" for both), yet consolidation returns two regions, not one —
the base-marker normalization is not idempotent, so the open region
(already stored under its base marker) no longer compares equal to the
next hit's base marker. -/
theorem C2_counterexample :
    _get_base_marker "CONTINCONTINUEDUED" = "CONTINUED" ∧
    (_consolidate_exhibits
        [{ marker := "CONTINCONTINUEDUED", start_page := 0,
           exhibit_type := "narrative" },
         { marker := "CONTINCONTINUEDUED", start_page := 1,
           exhibit_type := "narrative" }]).length = 2 := by
  decide

/-- C4 counterexample: a text containing "WEST VIRGINIA" yields VA, not
WV — the full-name loop checks the dictionary in insertion (alphabetical)
order and VIRGINIA, a substring of WEST VIRGINIA, is checked first. -/
theorem C4_counterexample :
    containsSub "WEST VIRGINIA".data "DEED IN WEST VIRGINIA".data = true ∧
    _extract_state "DEED IN WEST VIRGINIA" = some "VA" ∧
    ¬(_extract_state "DEED IN WEST VIRGINIA" = some "WV") := by
  decide

/-- C5 counterexample: "PACO ET AL" normalizes to "PACO", but normalizing
"PACO" strips the `,?\s*CO\.?$` suffix and yields "PA" — normalization is
not idempotent on this output. -/
theorem C5_counterexample :
    (normalize_party_name "PACO ET AL").normalized_name = "PACO" ∧
    (normalize_party_name "PACO").normalized_name = "PA" ∧
    ¬((normalize_party_name
        ((normalize_party_name "PACO ET AL").normalized_name)).normalized_name =
      (normalize_party_name "PACO ET AL").normalized_name) := by
  decide

/-- C7 counterexample: the et-ux pattern is anchored at the end of the
name, so a medial "ET UX" marker is not removed at all: nothing is
stripped from "SMITH ET UX AND JONES", contradicting the claim that
everything from the marker to the end is removed (which would leave
"SMITH"). -/
theorem C7_counterexample :
    containsSub "ET UX".data "SMITH ET UX AND JONES".data = true ∧
    (normalize_party_name "SMITH ET UX AND JONES").normalized_name =
      "SMITH ET UX AND JONES" ∧
    ¬((normalize_party_name "SMITH ET UX AND JONES").normalized_name =
      "SMITH") := by
  decide

/-- C10 counterexample: consolidating two hits with the identical marker
"CONTINCONTINUEDUED" yields two consecutive regions with the same marker
(hence the same base marker), and consolidating that output merges them —
consolidation is not idempotent. -/
theorem C10_counterexample :
    _consolidate_exhibits
        [{ marker := "CONTINCONTINUEDUED", start_page := 3,
           exhibit_type := "narrative" },
         { marker := "CONTINCONTINUEDUED", start_page := 4,
           exhibit_type := "narrative" }] =
      [{ marker := "CONTINUED", start_page := 3, exhibit_type := "narrative" },
       { marker := "CONTINUED", start_page := 4, exhibit_type := "narrative" }] ∧
    ¬(_consolidate_exhibits
        (_consolidate_exhibits
          [{ marker := "CONTINCONTINUEDUED", start_page := 3,
             exhibit_type := "narrative" },
           { marker := "CONTINCONTINUEDUED", start_page := 4,
             exhibit_type := "narrative" }]) =
      _consolidate_exhibits
        [{ marker := "CONTINCONTINUEDUED", start_page := 3,
           exhibit_type := "narrative" },
         { marker := "CONTINCONTINUEDUED", start_page := 4,
           exhibit_type := "narrative" }]) := by
  decide

/-- C8: for every marker and header text, classification returns one of
table, legal_descriptions, image, narrative; the categories are tested in
that fixed order (each answer holds exactly when its indicator set hits and
no earlier one does); and any header containing "SCHEDULE" — in particular
one containing both "SCHEDULE" and "PLAT" — classifies as table. -/
theorem C8_classify_order (marker text : String) :
    (_classify_exhibit_type marker text = "table" ∨
     _classify_exhibit_type marker text = "legal_descriptions" ∨
     _classify_exhibit_type marker text = "image" ∨
     _classify_exhibit_type marker text = "narrative") ∧
    (let hit := fun (ind : String) =>
      containsSub ind.data (pyUpper marker).data ||
        containsSub ind.data (pyUpper text).data
     (_classify_exhibit_type marker text = "table" ↔
        TABLE_INDICATORS.any hit = true) ∧
     (_classify_exhibit_type marker text = "legal_descriptions" ↔
        (TABLE_INDICATORS.any hit = false ∧
         LEGAL_DESC_INDICATORS.any hit = true)) ∧
     (_classify_exhibit_type marker text = "image" ↔
        (TABLE_INDICATORS.any hit = false ∧
         LEGAL_DESC_INDICATORS.any hit = false ∧
         IMAGE_INDICATORS.any hit = true)) ∧
     (_classify_exhibit_type marker text = "narrative" ↔
        (TABLE_INDICATORS.any hit = false ∧
         LEGAL_DESC_INDICATORS.any hit = false ∧
         IMAGE_INDICATORS.any hit = false))) ∧
    (containsSub "SCHEDULE".data (pyUpper text).data = true →
      _classify_exhibit_type marker text = "table") := by
  simp only [_classify_exhibit_type]
  cases hT : TABLE_INDICATORS.any (fun ind =>
      containsSub ind.data (pyUpper marker).data ||
        containsSub ind.data (pyUpper text).data) <;>
    cases hL : LEGAL_DESC_INDICATORS.any (fun ind =>
      containsSub ind.data (pyUpper marker).data ||
        containsSub ind.data (pyUpper text).data) <;>
      cases hI : IMAGE_INDICATORS.any (fun ind =>
        containsSub ind.data (pyUpper marker).data ||
          containsSub ind.data (pyUpper text).data) <;>
        refine ⟨by simp [hT, hL, hI], ⟨by simp [hT, hL, hI],
          by simp [hT, hL, hI], by simp [hT, hL, hI],
          by simp [hT, hL, hI]⟩, fun h => ?_⟩
  all_goals
    first
      | (simp [hT]; done)
      | (exfalso
         have hx : TABLE_INDICATORS.any (fun ind =>
             containsSub ind.data (pyUpper marker).data ||
               containsSub ind.data (pyUpper text).data) = true := by
           apply List.any_eq_true.mpr
           exact ⟨"SCHEDULE", by decide, by simp only [h, Bool.or_true]⟩
         rw [hx] at hT
         exact absurd hT (by decide))

/-- C8 witness: a header containing both "SCHEDULE" and "PLAT" classifies
as table. -/
theorem C8_classify_order_witness :
    _classify_exhibit_type "EXHIBIT B" "SCHEDULE OF LANDS AND PLAT" = "table" :=
  (C8_classify_order "EXHIBIT B" "SCHEDULE OF LANDS AND PLAT").2.2 (by decide)

/-- C1: `generate_spatial_key` returns a key exactly when all five of
state, county, section, township and range are extracted (non-empty, by
Python truthiness; the aliquot is never required); a returned key's
components are exactly the extractor outputs, its aliquot is the extracted
aliquot, and its composite string is
`STATE-COUNTY-SECTION-TOWNSHIP-RANGE` with `-ALIQUOT` appended exactly
when an aliquot was extracted.  By the iff, when any required component is
missing no key — in particular no partial key — is returned. -/
theorem C1_spatial_key_iff (s : String) :
    ((∃ k, generate_spatial_key s = some k) ↔
      (s ≠ "" ∧
       (∃ v, _extract_state (pyStrip (pyUpper s)) = some v ∧ v ≠ "") ∧
       (∃ v, _extract_county (pyStrip (pyUpper s)) = some v ∧ v ≠ "") ∧
       (∃ v, (_extract_section_township_range (pyStrip (pyUpper s))).1 = some v ∧ v ≠ "") ∧
       (∃ v, (_extract_section_township_range (pyStrip (pyUpper s))).2.1 = some v ∧ v ≠ "") ∧
       (∃ v, (_extract_section_township_range (pyStrip (pyUpper s))).2.2 = some v ∧ v ≠ ""))) ∧
    (∀ k, generate_spatial_key s = some k →
       _extract_state (pyStrip (pyUpper s)) = some k.state ∧
       _extract_county (pyStrip (pyUpper s)) = some k.county ∧
       (_extract_section_township_range (pyStrip (pyUpper s))).1 = some k.«section» ∧
       (_extract_section_township_range (pyStrip (pyUpper s))).2.1 = some k.township ∧
       (_extract_section_township_range (pyStrip (pyUpper s))).2.2 = some k.range ∧
       _extract_aliquot (pyStrip (pyUpper s)) = k.aliquot ∧
       k.key = k.state ++ "-" ++ k.county ++ "-" ++ k.«section» ++ "-" ++
         k.township ++ "-" ++ k.range ++
         (match k.aliquot with
          | some a => if a ≠ "" then "-" ++ a else ""
          | none => "")) := by
  by_cases hs : s = ""
  · subst hs
    refine ⟨⟨fun ⟨k, hk⟩ => ?_, fun ⟨h, _⟩ => absurd rfl h⟩, fun k hk => ?_⟩ <;>
      simp [generate_spatial_key] at hk
  · rcases hstr : _extract_section_township_range (pyStrip (pyUpper s)) with ⟨so, two, rao⟩
    rcases hstate : _extract_state (pyStrip (pyUpper s)) with _ | st <;>
      rcases hcounty : _extract_county (pyStrip (pyUpper s)) with _ | co <;>
        rcases so with _ | se <;> rcases two with _ | tw <;> rcases rao with _ | ra <;>
          simp only [generate_spatial_key, if_neg hs, hstate, hcounty, hstr] <;>
            simp_all
    constructor
    · tauto
    · rintro k h1 h2 h3 h4 h5 rfl
      simp [mkSpatialKey]

/-- C1 witness: all five components are extracted from the Garfield County
description, so a key exists. -/
theorem C1_spatial_key_iff_witness :
    ∃ k, generate_spatial_key "Sec 14-3N-4W, Garfield County, OK" = some k :=
  (C1_spatial_key_iff "Sec 14-3N-4W, Garfield County, OK").1.mpr
    ⟨by decide, ⟨"OK", by decide, by decide⟩, ⟨"GARFIELD", by decide, by decide⟩,
     ⟨"14", by decide, by decide⟩, ⟨"3N", by decide, by decide⟩,
     ⟨"4W", by decide, by decide⟩⟩

/-- Helper: the open region is always the first region emitted. -/
theorem consolidateAux_head (c : ExhibitInfo) (l : List ExhibitInfo) :
    ∃ tail, consolidateAux c l = c :: tail := by
  induction l generalizing c with
  | nil => exact ⟨[], rfl⟩
  | cons e rest ih =>
    simp only [consolidateAux]
    split_ifs with h
    · exact ih c
    · obtain ⟨t, ht⟩ := ih (freshRegion e)
      exact ⟨_, by rw [ht]⟩

/-- Helper: hits whose base marker matches the open region's are folded
into it. -/
theorem consolidateAux_append_same (b : List ExhibitInfo) (c : ExhibitInfo)
    (rest : List ExhibitInfo)
    (hb : ∀ e ∈ b, _get_base_marker e.marker = _get_base_marker c.marker) :
    consolidateAux c (b ++ rest) = consolidateAux c rest := by
  induction b with
  | nil => rfl
  | cons e b' ih =>
    simp only [List.cons_append, consolidateAux]
    rw [if_pos (hb e (by simp)).symm]
    exact ih (fun x hx => hb x (by simp [hx]))

/-- Helper: every emitted region is the initial open region or the fresh
record of some hit. -/
theorem consolidateAux_mem (c : ExhibitInfo) (l : List ExhibitInfo) :
    ∀ r ∈ consolidateAux c l, r = c ∨ ∃ e ∈ l, r = freshRegion e := by
  induction l generalizing c with
  | nil =>
    intro r hr
    simp only [consolidateAux, List.mem_singleton] at hr
    exact Or.inl hr
  | cons e rest ih =>
    intro r hr
    simp only [consolidateAux] at hr
    split_ifs at hr with h
    · rcases ih c r hr with h1 | ⟨x, hx, hr⟩
      · exact Or.inl h1
      · exact Or.inr ⟨x, by simp [hx], hr⟩
    · rcases List.mem_cons.mp hr with h1 | h1
      · exact Or.inl h1
      · rcases ih _ r h1 with h2 | ⟨x, hx, hr2⟩
        · exact Or.inr ⟨e, by simp, h2⟩
        · exact Or.inr ⟨x, by simp [hx], hr2⟩

/-- Helper: when every hit's base marker is a fixed point of
`_get_base_marker`, consecutive emitted regions differ both in marker and
in base marker. -/
theorem consolidateAux_chain (c : ExhibitInfo) (l : List ExhibitInfo)
    (hfix : ∀ e ∈ l, _get_base_marker (_get_base_marker e.marker) =
      _get_base_marker e.marker) :
    List.Chain' (fun r s =>
      _get_base_marker r.marker ≠ _get_base_marker s.marker ∧
        r.marker ≠ s.marker) (consolidateAux c l) := by
  induction l generalizing c with
  | nil => simp [consolidateAux]
  | cons e rest ih =>
    simp only [consolidateAux]
    split_ifs with h
    · exact ih c (fun x hx => hfix x (by simp [hx]))
    · obtain ⟨t, ht⟩ := consolidateAux_head (freshRegion e) rest
      rw [ht]
      have hfe := hfix e (by simp)
      refine List.Chain'.cons ⟨?_, ?_⟩ ?_
      · simpa [freshRegion, hfe] using h
      · intro hc
        exact h (by rw [hc]; exact hfe)
      · rw [← ht]
        exact ih _ (fun x hx => hfix x (by simp [hx]))

/-- Helper: consolidating the concatenation of non-interleaved blocks of
distinct fixed-point base markers emits one region per block. -/
theorem consolidateAux_blocks (ms : List String) (blocks : List (List ExhibitInfo))
    (hok : List.Forall₂ (fun m b => b ≠ [] ∧
      ∀ e ∈ b, _get_base_marker e.marker = m) ms blocks) :
    ∀ c : ExhibitInfo,
      List.Chain' (· ≠ ·) (c.marker :: ms) →
      (∀ m ∈ ms, _get_base_marker m = m) →
      _get_base_marker c.marker = c.marker →
      ∃ rest, consolidateAux c blocks.flatten = c :: rest ∧
        List.Forall₂ (fun b r => ∃ e t, b = e :: t ∧ r = freshRegion e)
          blocks rest := by
  induction hok with
  | nil =>
    intro c _ _ _
    exact ⟨[], rfl, List.Forall₂.nil⟩
  | cons hmb hok' ih =>
    rename_i m b ms' blocks'
    intro c hchain hfix hc
    obtain ⟨hbne, hbm⟩ := hmb
    obtain ⟨e, t, rfl⟩ := List.exists_cons_of_ne_nil hbne
    have hcm : c.marker ≠ m := (List.chain'_cons.mp hchain).1
    have hbase_e : _get_base_marker e.marker = m := hbm e (by simp)
    have hfr : (freshRegion e).marker = m := hbase_e
    simp only [List.flatten_cons, List.cons_append, consolidateAux]
    rw [if_neg (by rw [hc, hbase_e]; exact hcm)]
    have hmerge : consolidateAux (freshRegion e) (t ++ blocks'.flatten) =
        consolidateAux (freshRegion e) blocks'.flatten := by
      apply consolidateAux_append_same
      intro x hx
      have h1 : _get_base_marker x.marker = m := hbm x (by simp [hx])
      have h2 : _get_base_marker (freshRegion e).marker = m := by
        rw [hfr]
        exact hfix m (by simp)
      rw [h1, h2]
    simp only [List.append_eq]
    rw [hmerge]
    obtain ⟨rest', hrest', hforall⟩ := ih (freshRegion e)
      (by
        rw [hfr]
        exact (List.chain'_cons.mp hchain).2)
      (fun x hx => hfix x (by simp [hx]))
      (by rw [hfr]; exact hfix m (by simp))
    refine ⟨freshRegion e :: rest', by rw [hrest'], ?_⟩
    exact List.Forall₂.cons ⟨e, t, rfl, rfl⟩ hforall

/-- C2 (amended): for hits whose base markers form K non-interleaved blocks
of K pairwise-distinct base markers, each a fixed point of
`_get_base_marker` (as every real marker in `EXHIBIT_MARKERS` is),
consolidation returns exactly K regions, region i carrying block i's base
marker and starting at block i's first page.  (K = 1 gives the
consecutive-hits special case.) -/
theorem C2_blocks_consolidate (ms : List String) (blocks : List (List ExhibitInfo))
    (hok : List.Forall₂ (fun m b => b ≠ [] ∧
      ∀ e ∈ b, _get_base_marker e.marker = m) ms blocks)
    (hfix : ∀ m ∈ ms, _get_base_marker m = m)
    (hdist : List.Pairwise (· ≠ ·) ms) :
    (_consolidate_exhibits blocks.flatten).length = blocks.length ∧
    List.Forall₂ (fun b r => ∃ e t, b = e :: t ∧
        r.start_page = e.start_page ∧ r.marker = _get_base_marker e.marker)
      blocks (_consolidate_exhibits blocks.flatten) := by
  cases hok with
  | nil => exact ⟨rfl, List.Forall₂.nil⟩
  | cons hmb hok' =>
    rename_i m b ms' blocks'
    obtain ⟨hbne, hbm⟩ := hmb
    obtain ⟨e, t, rfl⟩ := List.exists_cons_of_ne_nil hbne
    have hbase_e : _get_base_marker e.marker = m := hbm e (by simp)
    have hfr : (freshRegion e).marker = m := hbase_e
    have hstep : _consolidate_exhibits ((e :: t) :: blocks').flatten =
        consolidateAux (freshRegion e) (t ++ blocks'.flatten) := by
      simp [_consolidate_exhibits, List.flatten_cons]
    have hmerge : consolidateAux (freshRegion e) (t ++ blocks'.flatten) =
        consolidateAux (freshRegion e) blocks'.flatten := by
      apply consolidateAux_append_same
      intro x hx
      have h1 : _get_base_marker x.marker = m := hbm x (by simp [hx])
      have h2 : _get_base_marker (freshRegion e).marker = m := by
        rw [hfr]
        exact hfix m (by simp)
      rw [h1, h2]
    obtain ⟨rest, hrest, hforall⟩ := consolidateAux_blocks ms' blocks' hok'
      (freshRegion e)
      (by
        rw [hfr]
        exact hdist.chain')
      (fun x hx => hfix x (by simp [hx]))
      (by rw [hfr]; exact hfix m (by simp))
    have hweak : List.Forall₂ (fun b r => ∃ e t, b = e :: t ∧
        r.start_page = e.start_page ∧ r.marker = _get_base_marker e.marker)
        blocks' rest := by
      clear hstep hmerge hrest hok'
      induction hforall with
      | nil => exact List.Forall₂.nil
      | cons h hh ihh =>
        refine List.Forall₂.cons ?_ ihh
        obtain ⟨x, tx, hbx, rfl⟩ := h
        refine ⟨x, tx, hbx, ?_, ?_⟩ <;> simp [freshRegion]
    rw [hstep, hmerge, hrest]
    constructor
    · simp [hweak.length_eq]
    · refine List.Forall₂.cons ?_ hweak
      refine ⟨e, t, rfl, ?_, ?_⟩ <;> simp [freshRegion]

/-- C2 witness: two blocks (EXHIBIT A spanning two pages via a continued
header, then EXHIBIT B) consolidate to exactly two regions at pages 5
and 10. -/
theorem C2_blocks_consolidate_witness :
    (_consolidate_exhibits
      [{ marker := "EXHIBIT A", start_page := 5, exhibit_type := "table" },
       { marker := "EXHIBIT A (CONTINUED)", start_page := 6,
         exhibit_type := "table" },
       { marker := "EXHIBIT B", start_page := 10,
         exhibit_type := "narrative" }]).length = 2 := by
  have h := C2_blocks_consolidate ["EXHIBIT A", "EXHIBIT B"]
    [[{ marker := "EXHIBIT A", start_page := 5, exhibit_type := "table" },
      { marker := "EXHIBIT A (CONTINUED)", start_page := 6,
        exhibit_type := "table" }],
     [{ marker := "EXHIBIT B", start_page := 10,
        exhibit_type := "narrative" }]]
    (by
      refine List.Forall₂.cons ⟨by decide, ?_⟩
        (List.Forall₂.cons ⟨by decide, ?_⟩ List.Forall₂.nil)
      · intro e he
        fin_cases he <;> decide
      · intro e he
        fin_cases he <;> decide)
    (by intro m hm; fin_cases hm <;> decide)
    (by simp)
  exact h.1

/-- Helper: re-consolidating a list of fresh regions with pairwise-adjacent
distinct fixed-point markers is the identity. -/
theorem consolidateAux_fixed (l : List ExhibitInfo) : ∀ c : ExhibitInfo,
    _get_base_marker c.marker = c.marker →
    (∀ r ∈ l, _get_base_marker r.marker = r.marker ∧ r.end_page = none ∧
      r.path = none ∧ r.page_count = 0) →
    List.Chain' (fun r s => r.marker ≠ s.marker) (c :: l) →
    consolidateAux c l = c :: l := by
  induction l with
  | nil => intro c _ _ _; rfl
  | cons r l' ih =>
    intro c hc hgood hchain
    obtain ⟨hrm, hre, hrp, hrc⟩ := hgood r (by simp)
    have hfr : freshRegion r = r := by
      obtain ⟨m, sp, et, ep, pa, pc⟩ := r
      simp only [freshRegion]
      simp only at hrm hre hrp hrc
      simp [hrm, hre, hrp, hrc]
    have hne : c.marker ≠ r.marker := (List.chain'_cons.mp hchain).1
    simp only [consolidateAux]
    rw [if_neg (by rw [hc, hrm]; exact hne), hfr]
    congr 1
    exact ih r hrm (fun x hx => hgood x (by simp [hx]))
      (List.chain'_cons.mp hchain).2

set_option maxHeartbeats 1000000 in
/-- C10 (amended): when every hit's base marker is a fixed point of
`_get_base_marker`, the output of `_consolidate_exhibits` has no two
consecutive regions with the same base marker, and consolidating the
output returns it unchanged. -/
theorem C10_consolidate_idempotent (hits : List ExhibitInfo)
    (hfix : ∀ e ∈ hits, _get_base_marker (_get_base_marker e.marker) =
      _get_base_marker e.marker) :
    List.Chain' (fun r s =>
        _get_base_marker r.marker ≠ _get_base_marker s.marker)
      (_consolidate_exhibits hits) ∧
    _consolidate_exhibits (_consolidate_exhibits hits) =
      _consolidate_exhibits hits := by
  cases hits with
  | nil => exact ⟨List.chain'_nil, rfl⟩
  | cons e t =>
    have hfixt : ∀ x ∈ t, _get_base_marker (_get_base_marker x.marker) =
        _get_base_marker x.marker := fun x hx => hfix x (by simp [hx])
    have hchain := consolidateAux_chain (freshRegion e) t hfixt
    obtain ⟨tail, htail⟩ := consolidateAux_head (freshRegion e) t
    have hout : _consolidate_exhibits (e :: t) =
        freshRegion e :: tail := htail
    have hgood : ∀ r ∈ _consolidate_exhibits (e :: t),
        _get_base_marker r.marker = r.marker ∧ r.end_page = none ∧
          r.path = none ∧ r.page_count = 0 := by
      intro r hr
      rcases consolidateAux_mem (freshRegion e) t r hr with h1 | ⟨x, hx, rfl⟩
      · subst h1
        refine ⟨?_, rfl, rfl, rfl⟩
        exact hfix e (by simp)
      · refine ⟨?_, rfl, rfl, rfl⟩
        exact hfixt x hx
    constructor
    · exact hchain.imp (fun a b h => h.1)
    · have hff : freshRegion (freshRegion e) = freshRegion e := by
        simp only [freshRegion]
        rw [hfix e (by simp)]
      have hmchain : List.Chain' (fun r s => r.marker ≠ s.marker)
          (freshRegion e :: tail) := by
        rw [← htail]
        exact hchain.imp (fun a b h => h.2)
      calc _consolidate_exhibits (_consolidate_exhibits (e :: t))
          = consolidateAux (freshRegion (freshRegion e)) tail := by
            rw [hout]; rfl
        _ = consolidateAux (freshRegion e) tail := by rw [hff]
        _ = freshRegion e :: tail := by
            apply consolidateAux_fixed tail (freshRegion e)
              (by show _get_base_marker (_get_base_marker e.marker) = _
                  exact hfix e (by simp))
              (fun r hr => hgood r (by rw [hout]; simp [hr]))
              hmchain
        _ = _consolidate_exhibits (e :: t) := hout.symm

/-- C10 witness: a three-hit run (EXHIBIT A, its continuation, EXHIBIT B)
consolidates to adjacent-distinct regions and re-consolidating is the
identity. -/
theorem C10_consolidate_idempotent_witness :
    _consolidate_exhibits (_consolidate_exhibits
      [{ marker := "EXHIBIT A", start_page := 5, exhibit_type := "table" },
       { marker := "EXHIBIT A (CONTINUED)", start_page := 6,
         exhibit_type := "table" },
       { marker := "EXHIBIT B", start_page := 10,
         exhibit_type := "narrative" }]) =
    _consolidate_exhibits
      [{ marker := "EXHIBIT A", start_page := 5, exhibit_type := "table" },
       { marker := "EXHIBIT A (CONTINUED)", start_page := 6,
         exhibit_type := "table" },
       { marker := "EXHIBIT B", start_page := 10,
         exhibit_type := "narrative" }] :=
  (C10_consolidate_idempotent _ (by intro x hx; fin_cases hx <;> decide)).2

/-- Helper: a successful `tryAbbrev` pins down an alternation member, the
literal occurrence and its right context. -/
theorem tryAbbrev_some {cs : List Char} {a : String}
    (h : tryAbbrev cs = some a) :
    a ∈ STATE_ABBREV_ALTERNATION ∧
      ∃ post, cs = a.data ++ post ∧ abbrevRightCtx post = true := by
  have hmem := List.mem_of_find?_eq_some h
  have hp := List.find?_some h
  rw [Bool.and_eq_true] at hp
  obtain ⟨hpre, hctx⟩ := hp
  obtain ⟨post, hpost⟩ := List.isPrefixOf_iff_prefix.mp hpre
  refine ⟨hmem, post, hpost.symm, ?_⟩
  have hdrop : cs.drop a.data.length = post := by
    rw [← hpost]
    simp
  rwa [hdrop] at hctx

/-- Helper: a successful abbreviation search exhibits a delimited
occurrence: the abbreviation is preceded by a comma or a non-empty
whitespace run and followed by a right context of the regex. -/
theorem abbrevSearch_some : ∀ {cs : List Char} {a : String},
    abbrevSearch cs = some a →
    a ∈ STATE_ABBREV_ALTERNATION ∧
    ∃ pre mid post, cs = pre ++ mid ++ a.data ++ post ∧
      ((∃ ws, mid = ',' :: ws ∧ ws.all isSpaceChar = true) ∨
        (mid ≠ [] ∧ mid.all isSpaceChar = true)) ∧
      abbrevRightCtx post = true := by
  intro cs
  induction cs with
  | nil => intro a h; exact absurd h (by simp [abbrevSearch])
  | cons c rest ih =>
    intro a h
    simp only [abbrevSearch] at h
    split_ifs at h with hcomma hspace
    · subst hcomma
      rcases htr : tryAbbrev (rest.dropWhile isSpaceChar) with _ | a'
      · rw [htr] at h
        obtain ⟨hmem, pre, mid, post, hsplit, hmid, hctx⟩ := ih h
        exact ⟨hmem, ',' :: pre, mid, post, by rw [hsplit]; rfl, hmid, hctx⟩
      · rw [htr] at h
        cases h
        obtain ⟨hmem, post, hsplit, hctx⟩ := tryAbbrev_some htr
        refine ⟨hmem, [], ',' :: rest.takeWhile isSpaceChar, post, ?_, ?_, hctx⟩
        · have := List.takeWhile_append_dropWhile isSpaceChar rest
          calc ',' :: rest
              = ',' :: (rest.takeWhile isSpaceChar ++ rest.dropWhile isSpaceChar) := by
                rw [this]
            _ = [] ++ (',' :: rest.takeWhile isSpaceChar) ++ a.data ++ post := by
                rw [hsplit]
                simp
        · refine Or.inl ⟨rest.takeWhile isSpaceChar, rfl, ?_⟩
          rw [List.all_eq_true]
          exact fun x hx => List.mem_takeWhile_imp hx
    · rcases htr : tryAbbrev ((c :: rest).dropWhile isSpaceChar) with _ | a'
      · rw [htr] at h
        obtain ⟨hmem, pre, mid, post, hsplit, hmid, hctx⟩ := ih h
        exact ⟨hmem, c :: pre, mid, post, by rw [hsplit]; rfl, hmid, hctx⟩
      · rw [htr] at h
        cases h
        obtain ⟨hmem, post, hsplit, hctx⟩ := tryAbbrev_some htr
        refine ⟨hmem, [], (c :: rest).takeWhile isSpaceChar, post, ?_, ?_, hctx⟩
        · have := List.takeWhile_append_dropWhile isSpaceChar (c :: rest)
          calc c :: rest
              = (c :: rest).takeWhile isSpaceChar ++
                  (c :: rest).dropWhile isSpaceChar := by rw [this]
            _ = [] ++ (c :: rest).takeWhile isSpaceChar ++ a.data ++ post := by
                rw [hsplit]
                simp
        · refine Or.inr ⟨?_, ?_⟩
          · simp [List.takeWhile_cons, hspace]
          · rw [List.all_eq_true]
            exact fun x hx => List.mem_takeWhile_imp hx
    · obtain ⟨hmem, pre, mid, post, hsplit, hmid, hctx⟩ := ih h
      exact ⟨hmem, c :: pre, mid, post, by rw [hsplit]; rfl, hmid, hctx⟩

/-- C4 (amended): state extraction tries full state names first, the first
matching name in the fixed dictionary order winning — so "WEST VIRGINIA"
yields VA (VIRGINIA precedes WEST VIRGINIA in the dictionary) and "IN
OKLAHOMA" yields OK (the full name OKLAHOMA matches; the abbreviation IN is
not even in the fallback alternation) — and the two-letter fallback fires
only on an occurrence preceded by a comma or whitespace and followed by
end-of-text, a comma, or whitespace and a digit, never as a substring of an
unrelated word. -/
theorem C4_state_extraction (text : String) :
    (∀ p, STATE_ABBREVIATIONS.find?
        (fun q => containsSub q.1.data text.data) = some p →
      _extract_state text = some p.2) ∧
    (∀ a, STATE_ABBREVIATIONS.find?
        (fun q => containsSub q.1.data text.data) = none →
      _extract_state text = some a →
      a ∈ STATE_ABBREV_ALTERNATION ∧
      ∃ pre mid post, text.data = pre ++ mid ++ a.data ++ post ∧
        ((∃ ws, mid = ',' :: ws ∧ ws.all isSpaceChar = true) ∨
          (mid ≠ [] ∧ mid.all isSpaceChar = true)) ∧
        abbrevRightCtx post = true) ∧
    "IN" ∉ STATE_ABBREV_ALTERNATION ∧
    _extract_state "IN OKLAHOMA" = some "OK" ∧
    _extract_state "WEST VIRGINIA" = some "VA" := by
  refine ⟨?_, ?_, by decide, by decide, by decide⟩
  · intro p hp
    simp [_extract_state, hp]
  · intro a hnone hsome
    rw [_extract_state, hnone] at hsome
    exact abbrevSearch_some hsome

/-- C4 witness: the fallback extraction of ND from "WILLIAMS COUNTY, ND"
ends in a delimited occurrence. -/
theorem C4_state_extraction_witness :
    "ND" ∈ STATE_ABBREV_ALTERNATION ∧
    ∃ pre mid post,
      ("WILLIAMS COUNTY, ND" : String).data = pre ++ mid ++ ("ND" : String).data ++ post ∧
      ((∃ ws, mid = ',' :: ws ∧ ws.all isSpaceChar = true) ∨
        (mid ≠ [] ∧ mid.all isSpaceChar = true)) ∧
      abbrevRightCtx post = true :=
  (C4_state_extraction "WILLIAMS COUNTY, ND").2.1 "ND" (by decide) (by decide)

/-- Helper: the leftover a token match keeps is empty or the trailing
newline of the remainder. -/
theorem matchToks_leftover : ∀ (ts : List PTok) (cs : List Char) (l : List Char),
    matchToks ts cs = some l → l = [] ∨ '\n' ∈ cs := by
  intro ts
  induction ts with
  | nil =>
    intro cs l h
    simp only [matchToks, atDollar] at h
    split_ifs at h with h1 h2
    · exact Or.inl (Option.some.inj h).symm
    · exact Or.inr (by rw [h2]; simp)
  | cons tk ts' ih =>
    intro cs l h
    cases tk with
    | lit w =>
      simp only [matchToks] at h
      split_ifs at h with hw
      rcases ih _ _ h with h1 | h1
      · exact Or.inl h1
      · exact Or.inr ((List.drop_subset _ _) h1)
    | optDot =>
      simp only [matchToks] at h
      split at h
      · rename_i rest
        split at h
        · rename_i l' hm
          cases h
          rcases ih _ _ hm with h1 | h1
          · exact Or.inl h1
          · exact Or.inr (by simp [h1])
        · rcases ih _ _ h with h1 | h1
          · exact Or.inl h1
          · exact Or.inr h1
      · rcases ih _ _ h with h1 | h1
        · exact Or.inl h1
        · exact Or.inr h1
    | ws1 =>
      simp only [matchToks] at h
      split at h
      · rename_i c rest
        split_ifs at h with hc
        rcases ih _ _ h with h1 | h1
        · exact Or.inl h1
        · exact Or.inr (List.mem_cons_of_mem c
            ((List.dropWhile_sublist _).subset h1))
      · cases h
    | anyToEnd =>
      simp only [matchToks] at h
      split_ifs at h with hts
      · simp only [anyToEndMatch] at h
        split_ifs at h with h1 h2 h3
        · exact Or.inr h1
        · exact Or.inl (Option.some.inj h).symm

/-- Helper: a successful substitution output is the prefix before the
leftmost matching position, plus the match's leftover; no earlier position
matches. -/
theorem subSuffix_spec : ∀ (toks : List PTok) (cs out : List Char),
    subSuffix toks cs = some out →
    ∃ p l, out = cs.take p ++ l ∧
      attemptSuffix toks (cs.drop p) = some l ∧
      ∀ q, q < p → attemptSuffix toks (cs.drop q) = none := by
  intro toks cs
  induction cs with
  | nil =>
    intro out h
    simp only [subSuffix] at h
    rcases ha : attemptSuffix toks [] with _ | l
    · rw [ha] at h
      cases h
    · rw [ha] at h
      cases h
      exact ⟨0, out, rfl, ha, fun q hq => absurd hq (by omega)⟩
  | cons c rest ih =>
    intro out h
    simp only [subSuffix] at h
    rcases ha : attemptSuffix toks (c :: rest) with _ | l
    · rw [ha] at h
      rcases hs : subSuffix toks rest with _ | out'
      · rw [hs] at h
        cases h
      · rw [hs] at h
        cases h
        obtain ⟨p, l, hout, hatt, hmin⟩ := ih out' hs
        refine ⟨p + 1, l, by simp [hout], hatt, ?_⟩
        intro q hq
        cases q with
        | zero => exact ha
        | succ q' => exact hmin q' (by omega)
    · rw [ha] at h
      cases h
      exact ⟨0, out, rfl, ha, fun q hq => absurd hq (by omega)⟩

/-- Helper: when the substitution reports no match, no position matches. -/
theorem subSuffix_none : ∀ (toks : List PTok) (cs : List Char),
    subSuffix toks cs = none →
    ∀ q, attemptSuffix toks (cs.drop q) = none := by
  intro toks cs
  induction cs with
  | nil =>
    intro h q
    simp only [subSuffix] at h
    rcases ha : attemptSuffix toks [] with _ | l
    · simpa using ha
    · rw [ha] at h
      cases h
  | cons c rest ih =>
    intro h q
    simp only [subSuffix] at h
    rcases ha : attemptSuffix toks (c :: rest) with _ | l
    · rw [ha] at h
      rcases hs : subSuffix toks rest with _ | out'
      · cases q with
        | zero => exact ha
        | succ q' => exact ih hs q'
      · rw [hs] at h
        cases h
    · rw [ha] at h
      cases h

/-- Helper: the leftover of one substitution attempt is empty or a trailing
newline of the remainder. -/
theorem attemptSuffix_leftover {toks : List PTok} {cs l : List Char}
    (h : attemptSuffix toks cs = some l) : l = [] ∨ '\n' ∈ cs := by
  simp only [attemptSuffix] at h
  rcases matchToks_leftover _ _ _ h with h1 | h1
  · exact Or.inl h1
  · refine Or.inr ?_
    revert h1
    split
    · rename_i rr _
      intro h1
      exact List.mem_cons_of_mem _ ((List.dropWhile_sublist _).subset h1)
    · intro h1
      exact (List.dropWhile_sublist _).subset h1

/-- Helper: a marker-to-end-of-line pattern (`LIT\s+.*$` after the common
`,?\s*`) matches at any occurrence of the literal followed by whitespace,
when no newline follows. -/
theorem attemptSuffix_marker (c0 : Char) (w : List Char) (c : Char) (r : List Char)
    (hc0s : isSpaceChar c0 = false) (hc0c : c0 ≠ ',')
    (hc : isSpaceChar c = true) (hnl : '\n' ∉ r) :
    attemptSuffix [.lit ⟨c0 :: w⟩, .ws1, .anyToEnd] ((c0 :: w) ++ c :: r) =
      some [] := by
  simp only [attemptSuffix]
  split
  · rename_i rr heq
    exfalso
    have h2 : c0 :: (w ++ c :: r) = ',' :: rr := heq
    injection h2 with h3 _
    exact hc0c h3
  · have hdw : ((c0 :: w) ++ c :: r).dropWhile isSpaceChar =
        (c0 :: w) ++ c :: r := by
      show (c0 :: (w ++ c :: r)).dropWhile isSpaceChar = _
      simp [List.dropWhile_cons, hc0s]
    rw [hdw]
    simp only [matchToks]
    rw [if_pos (by exact List.isPrefixOf_iff_prefix.mpr ⟨c :: r, rfl⟩)]
    have hdrop : ((c0 :: w) ++ c :: r).drop (String.mk (c0 :: w)).data.length =
        c :: r := List.drop_left _ _
    rw [hdrop]
    have hnl2 : '\n' ∉ r.dropWhile isSpaceChar :=
      fun hx => hnl ((List.dropWhile_sublist _).subset hx)
    simp [matchToks, hc, anyToEndMatch, hnl2]

set_option maxHeartbeats 1000000 in
/-- C7 (amended): the aka/fka/nka/dba patterns — exactly the tail of
`ENTITY_SUFFIXES`, whose bodies end in `.*$` — strip everything from the
first marker (the literal followed by whitespace) to the end: on any
newline-free input the substitution returns a prefix of the input in which
no such marker occurs.  The et-al/et-ux/et-vir patterns (and every other
suffix pattern) are `$`-anchored: each substitution either leaves the
input unchanged or truncates it exactly at a position where the whole
pattern matches through to the end.  And the concrete behaviour:
normalize_party_name("SMITH, JOHN ET UX") = ("SMITH JOHN", individual). -/
theorem C7_tail_patterns :
    (normalize_party_name "SMITH, JOHN ET UX" =
      { original_name := "SMITH, JOHN ET UX", normalized_name := "SMITH JOHN",
        entity_type := some "individual" }) ∧
    ENTITY_SUFFIXES.drop 24 =
      [[.lit "A/K/A", .ws1, .anyToEnd], [.lit "AKA", .ws1, .anyToEnd],
       [.lit "F/K/A", .ws1, .anyToEnd], [.lit "FKA", .ws1, .anyToEnd],
       [.lit "N/K/A", .ws1, .anyToEnd], [.lit "D/B/A", .ws1, .anyToEnd],
       [.lit "DBA", .ws1, .anyToEnd]] ∧
    (∀ (c0 : Char) (w : List Char) (cs : List Char),
      isSpaceChar c0 = false → c0 ≠ ',' → '\n' ∉ cs →
      applySuffix [.lit ⟨c0 :: w⟩, .ws1, .anyToEnd] cs <+: cs ∧
      ¬∃ l c r, applySuffix [.lit ⟨c0 :: w⟩, .ws1, .anyToEnd] cs =
          l ++ (c0 :: w) ++ c :: r ∧ isSpaceChar c = true) ∧
    (∀ (toks : List PTok) (cs : List Char), '\n' ∉ cs →
      applySuffix toks cs = cs ∨
      ∃ p, applySuffix toks cs = cs.take p ∧
        attemptSuffix toks (cs.drop p) = some []) := by
  refine ⟨by decide, by decide, ?_, ?_⟩
  · intro c0 w cs hc0s hc0c hnl
    rcases hsub : subSuffix [.lit ⟨c0 :: w⟩, .ws1, .anyToEnd] cs with _ | out
    · have happ : applySuffix [.lit ⟨c0 :: w⟩, .ws1, .anyToEnd] cs = cs := by
        simp [applySuffix, hsub]
      rw [happ]
      refine ⟨List.prefix_refl cs, ?_⟩
      rintro ⟨l, c, r, hdec, hc⟩
      have hnlr : '\n' ∉ r := fun hx => hnl (by rw [hdec]; simp [hx])
      have hatt := attemptSuffix_marker c0 w c r hc0s hc0c hc hnlr
      have hdrop : cs.drop l.length = (c0 :: w) ++ c :: r := by
        rw [hdec, List.append_assoc]
        exact List.drop_left _ _
      rw [← hdrop] at hatt
      rw [subSuffix_none _ _ hsub l.length] at hatt
      cases hatt
    · obtain ⟨p, lft, hout, hatt, hmin⟩ := subSuffix_spec _ _ _ hsub
      have hlft : lft = [] := by
        rcases attemptSuffix_leftover hatt with h1 | h1
        · exact h1
        · exact absurd ((List.drop_subset _ _) h1) hnl
      subst hlft
      rw [List.append_nil] at hout
      have happ : applySuffix [.lit ⟨c0 :: w⟩, .ws1, .anyToEnd] cs =
          cs.take p := by
        simp [applySuffix, hsub, hout]
      rw [happ]
      refine ⟨List.take_prefix p cs, ?_⟩
      rintro ⟨l, c, r, hdec, hc⟩
      have hcs : cs = l ++ ((c0 :: w) ++ c :: (r ++ cs.drop p)) := by
        conv_lhs => rw [← List.take_append_drop p cs]
        rw [hdec]
        simp [List.append_assoc]
      have hnlr : '\n' ∉ r ++ cs.drop p := fun hx => hnl (by rw [hcs]; simp [hx])
      have hq : cs.drop l.length = (c0 :: w) ++ c :: (r ++ cs.drop p) := by
        conv_lhs => rw [hcs]
        exact List.drop_left _ _
      have hatt2 := attemptSuffix_marker c0 w c (r ++ cs.drop p) hc0s hc0c hc hnlr
      rw [← hq] at hatt2
      have hlt : l.length < p := by
        have h1 : (cs.take p).length = l.length + (w.length + r.length + 2) := by
          rw [hdec]
          simp
          omega
        have h2 : (cs.take p).length ≤ p := by
          simp
        omega
      rw [hmin l.length hlt] at hatt2
      cases hatt2
  · intro toks cs hnl
    rcases hsub : subSuffix toks cs with _ | out
    · exact Or.inl (by simp [applySuffix, hsub])
    · obtain ⟨p, lft, hout, hatt, _⟩ := subSuffix_spec _ _ _ hsub
      have hlft : lft = [] := by
        rcases attemptSuffix_leftover hatt with h1 | h1
        · exact h1
        · exact absurd ((List.drop_subset _ _) h1) hnl
      subst hlft
      rw [List.append_nil] at hout
      refine Or.inr ⟨p, by simp [applySuffix, hsub, hout], hatt⟩

/-- C7 witness: the AKA pattern applied to "SMITH AKA JONES" returns a
prefix free of the marker. -/
theorem C7_tail_patterns_witness :
    applySuffix [.lit ⟨'A' :: ['K', 'A']⟩, .ws1, .anyToEnd]
        ("SMITH AKA JONES" : String).data <+:
      ("SMITH AKA JONES" : String).data ∧
    ¬∃ l c r, applySuffix [.lit ⟨'A' :: ['K', 'A']⟩, .ws1, .anyToEnd]
        ("SMITH AKA JONES" : String).data =
      l ++ ('A' :: ['K', 'A']) ++ c :: r ∧ isSpaceChar c = true :=
  (C7_tail_patterns.2.2.1) 'A' ['K', 'A'] ("SMITH AKA JONES" : String).data
    (by decide) (by decide) (by decide)

/-- Helper: `Char.toUpper` is idempotent (uppercasing moves the lowercase
range out of itself). -/
theorem toNat_ofNat_valid (n : Nat) (h : n.isValidChar) :
    (Char.ofNat n).toNat = n := by
  simp [Char.ofNat, h, Char.ofNatAux, Char.toNat, UInt32.toNat,
    BitVec.toNat_ofNatLt]

/-- Helper: `Char.toUpper` is idempotent. -/
theorem toUpper_toUpper (c : Char) : (c.toUpper).toUpper = c.toUpper := by
  unfold Char.toUpper
  simp only []
  split_ifs with h1 h2
  · exfalso
    rw [toNat_ofNat_valid (c.toNat - 32) (by unfold Nat.isValidChar; omega)] at h2
    omega
  · rfl
  · rfl

/-- Helper: dropping trailing whitespace is a sublist operation. -/
theorem dropTrailingWs_sublist (l : List Char) : List.Sublist (dropTrailingWs l) l := by
  induction l with
  | nil => exact List.Sublist.refl []
  | cons c rest ih =>
    simp only [dropTrailingWs]
    split_ifs with h
    · exact List.nil_sublist _
    · exact List.Sublist.cons₂ c ih

/-- Helper: stripping is a sublist operation. -/
theorem pyStripL_sublist (l : List Char) : List.Sublist (pyStripL l) l :=
  (dropTrailingWs_sublist _).trans (List.dropWhile_sublist _)

/-- Helper: removing standalone single letters is a sublist operation. -/
theorem removeSingles_sublist (b : Bool) (l : List Char) :
    List.Sublist (removeSingles b l) l := by
  induction l generalizing b with
  | nil => exact List.Sublist.refl []
  | cons c rest ih =>
    simp only [removeSingles]
    split_ifs with h
    · exact (ih _).cons c
    · exact (ih _).cons₂ c

/-- Helper: whitespace collapsing introduces only spaces. -/
theorem mem_collapseWsAux {c : Char} : ∀ {l : List Char} {p : Bool},
    c ∈ collapseWsAux p l → c ∈ l ∨ c = ' ' := by
  intro l
  induction l with
  | nil => intro p h; cases h
  | cons d rest ih =>
    intro p h
    simp only [collapseWsAux] at h
    split_ifs at h with h1 h2
    · rcases ih h with h3 | h3
      · exact Or.inl (List.mem_cons_of_mem d h3)
      · exact Or.inr h3
    · rcases List.mem_cons.mp h with h3 | h3
      · exact Or.inr h3
      · rcases ih h3 with h4 | h4
        · exact Or.inl (List.mem_cons_of_mem d h4)
        · exact Or.inr h4
    · rcases List.mem_cons.mp h with h3 | h3
      · exact Or.inl (by simp [h3])
      · rcases ih h3 with h4 | h4
        · exact Or.inl (List.mem_cons_of_mem d h4)
        · exact Or.inr h4

/-- Helper: the leftover of a token match is empty or a single newline. -/
theorem matchToks_leftover_shape : ∀ (ts : List PTok) (cs l : List Char),
    matchToks ts cs = some l → l = [] ∨ l = ['\n'] := by
  intro ts
  induction ts with
  | nil =>
    intro cs l h
    simp only [matchToks, atDollar] at h
    split_ifs at h with h1 h2
    · exact Or.inl (Option.some.inj h).symm
    · exact Or.inr (Option.some.inj h).symm
  | cons tk ts' ih =>
    intro cs l h
    cases tk with
    | lit w =>
      simp only [matchToks] at h
      split_ifs at h with hw
      exact ih _ _ h
    | optDot =>
      simp only [matchToks] at h
      split at h
      · rename_i rest
        split at h
        · rename_i l' hm
          cases h
          exact ih _ _ hm
        · exact ih _ _ h
      · exact ih _ _ h
    | ws1 =>
      simp only [matchToks] at h
      split at h
      · rename_i c rest
        split_ifs at h with hc
        exact ih _ _ h
      · cases h
    | anyToEnd =>
      simp only [matchToks] at h
      split_ifs at h with hts
      simp only [anyToEndMatch] at h
      split_ifs at h with h1 h2 h3
      · exact Or.inr (Option.some.inj h).symm
      · exact Or.inl (Option.some.inj h).symm

/-- Helper: one suffix substitution only deletes characters or keeps a
trailing newline, so its output's characters come from the input. -/
theorem applySuffix_subset (toks : List PTok) (l : List Char) :
    ∀ c ∈ applySuffix toks l, c ∈ l := by
  intro c hc
  rcases hsub : subSuffix toks l with _ | out
  · rwa [applySuffix, hsub] at hc
  · rw [applySuffix, hsub] at hc
    obtain ⟨p, lft, hout, hatt, _⟩ := subSuffix_spec _ _ _ hsub
    rw [hout] at hc
    rcases List.mem_append.mp hc with h1 | h1
    · exact (List.take_subset _ _) h1
    · rcases matchToks_leftover_shape _ _ _ hatt with h2 | h2
      · rw [h2] at h1
        cases h1
      · rw [h2] at h1
        rcases attemptSuffix_leftover hatt with h3 | h3
        · rw [h3] at h2
          cases h2
        · have : c = '\n' := by simpa using h1
          rw [this]
          exact (List.drop_subset _ _) h3

/-- Helper: the whole suffix-stripping pass only keeps input characters. -/
theorem suffixFold_subset (pats : List (List PTok)) :
    ∀ (l : List Char) (c : Char),
      c ∈ pats.foldl (fun t pat => applySuffix pat t) l → c ∈ l := by
  induction pats with
  | nil => intro l c h; simpa using h
  | cons p ps ih =>
    intro l c h
    simp only [List.foldl_cons] at h
    exact applySuffix_subset p l c (ih _ c h)

/-- `collapseWsAux` output satisfies `noRun` (with the matching state). -/
theorem noRun_collapseWsAux : ∀ (l : List Char) (b : Bool),
    noRun b (collapseWsAux b l) = true := by
  intro l
  induction l with
  | nil => intro b; rfl
  | cons c rest ih =>
    intro b
    simp only [collapseWsAux]
    split_ifs with h1 h2
    · rw [h2]; exact ih true
    · have hb : b = false := by simpa using h2
      simp only [noRun, Bool.and_eq_true]
      refine ⟨by rw [hb]; decide, ?_⟩
      rw [show isSpaceChar ' ' = true from by decide]
      exact ih true
    · have hc : isSpaceChar c = false := by simpa using h1
      simp only [noRun, hc, Bool.and_eq_true]
      exact ⟨by simp, ih false⟩

/-- `dropTrailingWs` preserves `noRun`. -/
theorem noRun_dropTrailingWs : ∀ (l : List Char) (b : Bool),
    noRun b l = true → noRun b (dropTrailingWs l) = true := by
  intro l
  induction l with
  | nil => intro b h; exact h
  | cons c rest ih =>
    intro b h
    simp only [noRun, Bool.and_eq_true] at h
    simp only [dropTrailingWs]
    split_ifs with h1
    · rfl
    · simp only [noRun, Bool.and_eq_true]
      exact ⟨h.1, ih _ h.2⟩

/-- `List.dropWhile isSpaceChar` turns `noRun` into `noRun false`. -/
theorem noRun_dropWhile : ∀ (l : List Char) (b : Bool),
    noRun b l = true → noRun false (l.dropWhile isSpaceChar) = true := by
  intro l
  induction l with
  | nil => intro b h; exact h
  | cons c rest ih =>
    intro b h
    simp only [noRun, Bool.and_eq_true] at h
    by_cases hc : isSpaceChar c = true
    · rw [List.dropWhile_cons_of_pos hc]
      exact ih _ (hc ▸ h.2)
    · rw [List.dropWhile_cons_of_neg (by simp [hc])]
      simp only [noRun, Bool.and_eq_true]
      refine ⟨by simp [hc], ?_⟩
      rw [show isSpaceChar c = false from by simpa using hc] at h ⊢
      exact h.2

/-- On a `noRun` list, whitespace collapsing is the identity. -/
theorem collapseWsAux_id : ∀ (l : List Char) (b : Bool),
    noRun b l = true → collapseWsAux b l = l := by
  intro l
  induction l with
  | nil => intro b h; rfl
  | cons c rest ih =>
    intro b h
    simp only [noRun, Bool.and_eq_true] at h
    simp only [collapseWsAux]
    split_ifs with h1 h2
    · exfalso
      rw [h1, h2] at h
      simp at h
    · have hsp := h.1
      rw [h1] at hsp
      simp only [Bool.not_true, Bool.false_or, Bool.and_eq_true] at hsp
      have ht := h.2
      rw [h1] at ht
      rw [show c = ' ' from by simpa using hsp.1, ih _ ht]
    · have ht := h.2
      rw [show isSpaceChar c = false from by simpa using h1] at ht
      rw [ih _ ht]

/-- On a list with no trailing whitespace, `dropTrailingWs` is the
identity. -/
theorem dropTrailingWs_id : ∀ (l : List Char),
    noTrailWs l = true → dropTrailingWs l = l := by
  intro l
  induction l with
  | nil => intro h; rfl
  | cons c rest ih =>
    intro h
    cases rest with
    | nil =>
      have hc : isSpaceChar c = false := by simpa [noTrailWs] using h
      simp [dropTrailingWs, hc]
    | cons d rr =>
      simp only [noTrailWs, if_neg (by simp : ¬(d :: rr = []))] at h
      have hr : dropTrailingWs (d :: rr) = d :: rr := ih h
      show (if dropTrailingWs (d :: rr) = [] && isSpaceChar c then []
            else c :: dropTrailingWs (d :: rr)) = c :: d :: rr
      rw [hr]
      simp

/-! Character-class facts used by the idempotence proof. -/

theorem word_of_upper {c : Char} (h : isUpperAZ c = true) : isWordChar c = true := by
  simp only [isUpperAZ, Bool.and_eq_true, decide_eq_true_eq] at h
  simp only [isWordChar, Char.isAlpha, Char.isUpper, Bool.or_eq_true, Bool.and_eq_true,
    decide_eq_true_eq]
  exact Or.inl (Or.inl (Or.inl ⟨h.1, h.2⟩))

theorem spaceChar_cases {c : Char} (h : isSpaceChar c = true) :
    c = ' ' ∨ c = '\t' ∨ c = '\n' ∨ c = '\x0d' ∨ c = '\x0b' ∨ c = '\x0c' := by
  simpa [isSpaceChar, or_assoc] using h

theorem nonword_of_space {c : Char} (h : isSpaceChar c = true) : isWordChar c = false := by
  rcases spaceChar_cases h with rfl | rfl | rfl | rfl | rfl | rfl <;> decide

theorem notspace_of_word {c : Char} (h : isWordChar c = true) : isSpaceChar c = false := by
  by_contra hc
  have h2 := nonword_of_space (c := c) (by simpa using hc)
  rw [h] at h2
  cases h2

theorem notupper_of_space {c : Char} (h : isSpaceChar c = true) : isUpperAZ c = false := by
  by_contra hc
  have h2 := word_of_upper (c := c) (by simpa using hc)
  rw [nonword_of_space h] at h2
  cases h2

/-- On an `nSingle` list, `removeSingles` is the identity. -/
theorem removeSingles_id : ∀ (l : List Char) (b : Bool),
    nSingle b l = true → removeSingles b l = l := by
  intro l
  induction l with
  | nil => intro b h; rfl
  | cons c rest ih =>
    intro b h
    simp only [nSingle, Bool.and_eq_true, Bool.not_eq_true'] at h
    simp only [removeSingles]
    rw [if_neg (by simp [h.1])]
    rw [ih _ h.2]

/-- With a word left context nothing is deleted at the head. -/
theorem removeSingles_false_cons (d : Char) (rest : List Char) :
    removeSingles false (d :: rest) = d :: removeSingles (!isWordChar d) rest := by
  simp only [removeSingles]
  rw [if_neg (by simp)]

/-- A deleted letter's neighbours are non-word characters, so deletion never
creates a new standalone letter: one pass of `removeSingles` leaves a list
on which the deletion test fails everywhere. -/
theorem nSingle_removeSingles : ∀ (n : Nat) (l : List Char) (b : Bool),
    l.length ≤ n → nSingle b (removeSingles b l) = true := by
  intro n
  induction n with
  | zero =>
    intro l b h
    have : l = [] := List.eq_nil_of_length_eq_zero (Nat.le_zero.mp h)
    subst this
    rfl
  | succ m ihm =>
    intro l b h
    cases l with
    | nil => rfl
    | cons c rest =>
      simp only [List.length_cons] at h
      have hlen : rest.length ≤ m := by omega
      clear h
      simp only [removeSingles]
      by_cases hdel : (isUpperAZ c && b && headNonword rest) = true
      · rw [if_pos hdel]
        simp only [Bool.and_eq_true] at hdel
        have hw : isWordChar c = true := word_of_upper hdel.1.1
        rw [hw]
        simp only [Bool.not_true]
        cases rest with
        | nil => rfl
        | cons d rest' =>
          have hd : isWordChar d = false := by
            have := hdel.2
            simpa [headNonword] using this
          rw [removeSingles_false_cons, hd]
          simp only [nSingle, Bool.and_eq_true]
          refine ⟨?_, ?_⟩
          · have hud : isUpperAZ d = false := by
              by_contra hud'
              rw [word_of_upper (by simpa using hud')] at hd
              cases hd
            simp [headNonword, hud]
          · rw [hd]
            have : rest'.length ≤ m := by
              have := hlen
              simp only [List.length_cons] at this
              omega
            exact ihm rest' true this
      · rw [if_neg hdel]
        simp only [nSingle, Bool.and_eq_true]
        refine ⟨?_, ?_⟩
        · by_cases hub : isUpperAZ c = true ∧ b = true
          · cases rest with
            | nil => exact absurd (by simp [headNonword, hub.1, hub.2]) hdel
            | cons d rest' =>
              have hd : isWordChar d = true := by
                by_contra hd'
                exact hdel (by simp [headNonword, hub.1, hub.2,
                  (by simpa using hd' : isWordChar d = false)])
              rw [word_of_upper hub.1]
              simp only [Bool.not_true]
              rw [removeSingles_false_cons]
              simp [headNonword, hd]
          · rcases not_and_or.mp hub with hu | hb
            · simp [(by simpa using hu : isUpperAZ c = false)]
            · simp [(by simpa using hb : b = false)]
        · exact ihm rest _ hlen

/-- Collapsing at a non-space head steps past it. -/
theorem collapseWsAux_cons_nospace {d : Char} (p : Bool) (r : List Char)
    (hd : isSpaceChar d = false) :
    collapseWsAux p (d :: r) = d :: collapseWsAux false r := by
  simp only [collapseWsAux]
  rw [if_neg (by simp [hd])]

/-- `dropTrailingWs` at a non-space head steps past it. -/
theorem dropTrailingWs_cons_nospace {d : Char} (r : List Char)
    (hd : isSpaceChar d = false) :
    dropTrailingWs (d :: r) = d :: dropTrailingWs r := by
  simp only [dropTrailingWs]
  rw [if_neg (by simp [hd])]

/-- Whitespace collapsing preserves `nSingle`: every remaining character
keeps the word/non-word status of both its neighbours. -/
theorem nSingle_collapseWsAux : ∀ (l : List Char) (p b : Bool),
    (p = true → b = true) → nSingle b l = true →
    nSingle b (collapseWsAux p l) = true := by
  intro l
  induction l with
  | nil => intro p b _ _; rfl
  | cons c rest ih =>
    intro p b hpb h
    simp only [nSingle, Bool.and_eq_true] at h
    simp only [collapseWsAux]
    split_ifs with h1 h2
    · rw [hpb h2]
      have ht := h.2
      rw [nonword_of_space h1] at ht
      exact ih true true (fun _ => rfl) ht
    · simp only [nSingle, Bool.and_eq_true]
      refine ⟨by simp [show isUpperAZ ' ' = false from by decide], ?_⟩
      rw [show isWordChar ' ' = false from by decide]
      have ht := h.2
      rw [nonword_of_space h1] at ht
      exact ih true true (fun _ => rfl) ht
    · simp only [nSingle, Bool.and_eq_true]
      have hc : isSpaceChar c = false := by simpa using h1
      refine ⟨?_, ih false (!isWordChar c) (by simp) h.2⟩
      by_cases hub : isUpperAZ c = true ∧ b = true
      · have hh := h.1
        rw [hub.1, hub.2] at hh
        simp only [Bool.true_and, Bool.not_eq_true'] at hh
        cases rest with
        | nil => cases hh
        | cons d rest' =>
          have hd : isWordChar d = true := by simpa [headNonword] using hh
          rw [collapseWsAux_cons_nospace false rest' (notspace_of_word hd)]
          simp [headNonword, hd]
      · rcases not_and_or.mp hub with hu | hb
        · simp [(by simpa using hu : isUpperAZ c = false)]
        · simp [(by simpa using hb : b = false)]

/-- Dropping leading whitespace preserves `nSingle true`. -/
theorem nSingle_dropWhile : ∀ (l : List Char),
    nSingle true l = true → nSingle true (l.dropWhile isSpaceChar) = true := by
  intro l
  induction l with
  | nil => intro h; exact h
  | cons c rest ih =>
    intro h
    simp only [nSingle, Bool.and_eq_true] at h
    by_cases hc : isSpaceChar c = true
    · rw [List.dropWhile_cons_of_pos hc]
      have ht := h.2
      rw [nonword_of_space hc] at ht
      exact ih ht
    · rw [List.dropWhile_cons_of_neg (by simp [hc])]
      simp only [nSingle, Bool.and_eq_true]
      exact h

/-- Dropping trailing whitespace preserves `nSingle`. -/
theorem nSingle_dropTrailingWs : ∀ (l : List Char) (b : Bool),
    nSingle b l = true → nSingle b (dropTrailingWs l) = true := by
  intro l
  induction l with
  | nil => intro b h; exact h
  | cons c rest ih =>
    intro b h
    simp only [nSingle, Bool.and_eq_true] at h
    simp only [dropTrailingWs]
    split_ifs with h1
    · rfl
    · simp only [nSingle, Bool.and_eq_true]
      refine ⟨?_, ih _ h.2⟩
      by_cases hub : isUpperAZ c = true ∧ b = true
      · have hh := h.1
        rw [hub.1, hub.2] at hh
        simp only [Bool.true_and, Bool.not_eq_true'] at hh
        cases rest with
        | nil => cases hh
        | cons d rest' =>
          have hd : isWordChar d = true := by simpa [headNonword] using hh
          rw [dropTrailingWs_cons_nospace rest' (notspace_of_word hd)]
          simp [headNonword, hd]
      · rcases not_and_or.mp hub with hu | hb
        · simp [(by simpa using hu : isUpperAZ c = false)]
        · simp [(by simpa using hb : b = false)]

/-- `dropTrailingWs` output has no trailing whitespace. -/
theorem noTrailWs_dropTrailingWs : ∀ (l : List Char),
    noTrailWs (dropTrailingWs l) = true := by
  intro l
  induction l with
  | nil => rfl
  | cons c rest ih =>
    simp only [dropTrailingWs]
    split_ifs with h1
    · rfl
    · simp only [Bool.and_eq_true, Bool.not_eq_true', not_and_or,
        decide_eq_true_eq] at h1
      cases hr : dropTrailingWs rest with
      | nil =>
        rcases h1 with h1 | h1
        · exact absurd hr h1
        · simp [noTrailWs, hr, h1]
      | cons d rr =>
        have h2 : noTrailWs (c :: d :: rr) = noTrailWs (d :: rr) := by
          simp [noTrailWs]
        rw [h2]
        exact hr ▸ ih

/-- `dropWhile isSpaceChar` output does not start with whitespace. -/
theorem headNotSpace_dropWhile : ∀ (l : List Char),
    headNotSpace (l.dropWhile isSpaceChar) = true := by
  intro l
  induction l with
  | nil => rfl
  | cons c rest ih =>
    by_cases hc : isSpaceChar c = true
    · rw [List.dropWhile_cons_of_pos hc]
      exact ih
    · rw [List.dropWhile_cons_of_neg (by simp [hc])]
      simpa [headNotSpace] using hc

/-- `dropTrailingWs` preserves a non-space head. -/
theorem headNotSpace_dropTrailingWs : ∀ (l : List Char),
    headNotSpace l = true → headNotSpace (dropTrailingWs l) = true := by
  intro l h
  cases l with
  | nil => rfl
  | cons c rest =>
    simp only [dropTrailingWs]
    split_ifs with h1
    · rfl
    · simpa [headNotSpace] using h

/-- On a list with a non-space head, `dropWhile isSpaceChar` is the
identity. -/
theorem dropWhile_id_of_headNotSpace : ∀ (l : List Char),
    headNotSpace l = true → l.dropWhile isSpaceChar = l := by
  intro l h
  cases l with
  | nil => rfl
  | cons c rest =>
    simp only [headNotSpace, Bool.not_eq_true'] at h
    exact List.dropWhile_cons_of_neg (by simp [h])

/-- `pyStripL` output has a non-space head. -/
theorem headNotSpace_pyStripL (l : List Char) :
    headNotSpace (pyStripL l) = true :=
  headNotSpace_dropTrailingWs _ (headNotSpace_dropWhile l)

/-- `pyStripL` output has no trailing whitespace. -/
theorem noTrailWs_pyStripL (l : List Char) :
    noTrailWs (pyStripL l) = true :=
  noTrailWs_dropTrailingWs _

/-- On an already-stripped list, `pyStripL` is the identity. -/
theorem pyStripL_id (l : List Char) (h1 : headNotSpace l = true)
    (h2 : noTrailWs l = true) : pyStripL l = l := by
  rw [pyStripL, dropWhile_id_of_headNotSpace l h1, dropTrailingWs_id l h2]

/-- `str.upper()` output is `toUpper`-fixed. -/
theorem upperFixedAll_map (l : List Char) :
    upperFixedAll (l.map Char.toUpper) := by
  intro c hc
  obtain ⟨d, _, rfl⟩ := List.mem_map.mp hc
  exact toUpper_toUpper d

/-- On a `toUpper`-fixed list, `str.upper()` is the identity. -/
theorem map_toUpper_id (l : List Char) (h : upperFixedAll l) :
    l.map Char.toUpper = l := by
  induction l with
  | nil => rfl
  | cons c rest ih =>
    simp only [List.map_cons]
    rw [h c (List.mem_cons_self c rest), ih (fun d hd => h d (List.mem_cons_of_mem c hd))]

/-- `removePunct` output characters come from the input or are spaces. -/
theorem mem_removePunct {c : Char} {l : List Char} (h : c ∈ removePunct l) :
    c ∈ l ∨ c = ' ' := by
  obtain ⟨d, hd, he⟩ := List.mem_map.mp h
  by_cases hw : (isWordChar d || isSpaceChar d || d = '-') = true
  · rw [if_pos hw] at he
    exact Or.inl (he ▸ hd)
  · rw [if_neg hw] at he
    exact Or.inr he.symm

/-- `removePunct` output contains only allowed characters. -/
theorem allowedAll_removePunct (l : List Char) : allowedAll (removePunct l) := by
  intro c hc
  obtain ⟨d, _, he⟩ := List.mem_map.mp hc
  by_cases hw : (isWordChar d || isSpaceChar d || d = '-') = true
  · rw [if_pos hw] at he
    exact he ▸ hw
  · rw [if_neg hw] at he
    rw [← he]
    decide

/-- On an all-allowed list, `removePunct` is the identity. -/
theorem removePunct_id (l : List Char) (h : allowedAll l) :
    removePunct l = l := by
  induction l with
  | nil => rfl
  | cons c rest ih =>
    simp only [removePunct, List.map_cons]
    rw [if_pos (h c (List.mem_cons_self c rest))]
    have := ih (fun d hd => h d (List.mem_cons_of_mem c hd))
    simp only [removePunct] at this
    rw [this]

/-- An untouched suffix pass is the identity. -/
theorem suffixFold_id (pats : List (List PTok)) (l : List Char)
    (h : ∀ p ∈ pats, subSuffix p l = none) :
    pats.foldl (fun t pat => applySuffix pat t) l = l := by
  induction pats with
  | nil => rfl
  | cons p ps ih =>
    simp only [List.foldl_cons]
    have hp : applySuffix p l = l := by
      rw [applySuffix, h p (List.mem_cons_self p ps)]
    rw [hp]
    exact ih (fun q hq => h q (List.mem_cons_of_mem p hq))

/-- `collapseStrip` output satisfies `noRun false`. -/
theorem noRun_collapseStrip (l : List Char) :
    noRun false (collapseStrip l) = true :=
  noRun_dropTrailingWs _ _ (noRun_dropWhile _ _ (noRun_collapseWsAux l false))

/-- `collapseStrip` output characters come from the input or are spaces. -/
theorem mem_collapseStrip {c : Char} {l : List Char}
    (h : c ∈ collapseStrip l) : c ∈ l ∨ c = ' ' :=
  mem_collapseWsAux ((pyStripL_sublist _).subset h)

/-- On a collapsed and stripped list, `collapseStrip` is the identity. -/
theorem collapseStrip_id (l : List Char) (hNR : noRun false l = true)
    (hH : headNotSpace l = true) (hT : noTrailWs l = true) :
    collapseStrip l = l := by
  rw [collapseStrip, collapseWsAux_id l false hNR, pyStripL_id l hH hT]

/-- Every invariant needed for a second normalization pass to act as the
identity holds of `normalize_party_name`'s output (uppercase-fixed,
punctuation-free, collapsed, stripped, no standalone single letters). -/
theorem normalized_invariants (name : String) :
    upperFixedAll (normalize_party_name name).normalized_name.data ∧
    allowedAll (normalize_party_name name).normalized_name.data ∧
    noRun false (normalize_party_name name).normalized_name.data = true ∧
    headNotSpace (normalize_party_name name).normalized_name.data = true ∧
    noTrailWs (normalize_party_name name).normalized_name.data = true ∧
    nSingle true (normalize_party_name name).normalized_name.data = true := by
  by_cases hnil : name = ""
  · subst hnil
    refine ⟨?_, ?_, ?_, ?_, ?_, ?_⟩ <;>
      first
        | (intro c hc; cases hc)
        | rfl
  · simp only [normalize_party_name, if_neg hnil]
    set L0 : List Char := (pyUpper (pyStrip name)).data with hL0
    set L1 : List Char :=
      ENTITY_SUFFIXES.foldl (fun t pat => applySuffix pat t) L0 with hL1
    set L2 : List Char := removePunct L1 with hL2
    set L3 : List Char := collapseStrip L2 with hL3
    set L4 : List Char := removeSingles true L3 with hL4
    have hU0 : upperFixedAll L0 := by
      rw [hL0]
      exact upperFixedAll_map _
    have hU1 : upperFixedAll L1 := fun c hc =>
      hU0 c (suffixFold_subset ENTITY_SUFFIXES L0 c (hL1 ▸ hc))
    have hU2 : upperFixedAll L2 := by
      intro c hc
      rcases mem_removePunct (hL2 ▸ hc) with h | h
      · exact hU1 c h
      · rw [h]; decide
    have hU3 : upperFixedAll L3 := by
      intro c hc
      rcases mem_collapseStrip (hL3 ▸ hc) with h | h
      · exact hU2 c h
      · rw [h]; decide
    have hU4 : upperFixedAll L4 := fun c hc =>
      hU3 c ((removeSingles_sublist true L3).subset (hL4 ▸ hc))
    have hU5 : upperFixedAll (collapseStrip L4) := by
      intro c hc
      rcases mem_collapseStrip hc with h | h
      · exact hU4 c h
      · rw [h]; decide
    have hA2 : allowedAll L2 := hL2 ▸ allowedAll_removePunct L1
    have hA3 : allowedAll L3 := by
      intro c hc
      rcases mem_collapseStrip (hL3 ▸ hc) with h | h
      · exact hA2 c h
      · rw [h]; decide
    have hA4 : allowedAll L4 := fun c hc =>
      hA3 c ((removeSingles_sublist true L3).subset (hL4 ▸ hc))
    have hA5 : allowedAll (collapseStrip L4) := by
      intro c hc
      rcases mem_collapseStrip hc with h | h
      · exact hA4 c h
      · rw [h]; decide
    have hS4 : nSingle true L4 = true := by
      rw [hL4]
      exact nSingle_removeSingles L3.length L3 true le_rfl
    have hS5 : nSingle true (collapseStrip L4) = true :=
      nSingle_dropTrailingWs _ _
        (nSingle_dropWhile _ (nSingle_collapseWsAux L4 false true (by simp) hS4))
    exact ⟨hU5, hA5, noRun_collapseStrip L4, headNotSpace_pyStripL _,
      noTrailWs_pyStripL _, hS5⟩

/-- On a list satisfying all output invariants and matching no entity
suffix, the whole normalization pipeline is the identity. -/
theorem normalize_id_of_clean (l : List Char)
    (hU : upperFixedAll l) (hA : allowedAll l)
    (hNR : noRun false l = true) (hH : headNotSpace l = true)
    (hT : noTrailWs l = true) (hS : nSingle true l = true)
    (hfree : ∀ p ∈ ENTITY_SUFFIXES, subSuffix p l = none) :
    (normalize_party_name ⟨l⟩).normalized_name = ⟨l⟩ := by
  by_cases hnil : (⟨l⟩ : String) = ""
  · rw [hnil]
    rfl
  · simp only [normalize_party_name, if_neg hnil]
    have e1 : pyStrip ⟨l⟩ = ⟨l⟩ := by
      rw [pyStrip]
      exact congrArg String.mk (pyStripL_id l hH hT)
    have e2d : (pyUpper (pyStrip ⟨l⟩)).data = l := by
      rw [e1, pyUpper]
      exact map_toUpper_id l hU
    rw [e2d, suffixFold_id ENTITY_SUFFIXES l hfree, removePunct_id l hA,
      collapseStrip_id l hNR hH hT, removeSingles_id l true hS,
      collapseStrip_id l hNR hH hT]

/-- C5 (amended): party-name normalization is idempotent on every output
whose normalized name matches none of the ENTITY_SUFFIXES patterns:
re-normalizing such an output returns it unchanged. -/
theorem C5_idempotent_when_suffix_free (name : String)
    (hfree : ∀ p ∈ ENTITY_SUFFIXES,
      subSuffix p (normalize_party_name name).normalized_name.data = none) :
    (normalize_party_name
        ((normalize_party_name name).normalized_name)).normalized_name =
      (normalize_party_name name).normalized_name := by
  obtain ⟨hU, hA, hNR, hH, hT, hS⟩ := normalized_invariants name
  exact normalize_id_of_clean (normalize_party_name name).normalized_name.data
    hU hA hNR hH hT hS hfree

/-- C5 witness: "SMITH OIL, LLC" normalizes to "SMITH OIL", which matches no
entity-suffix pattern, and re-normalizing returns it unchanged. -/
theorem C5_idempotent_when_suffix_free_witness :
    (∀ p ∈ ENTITY_SUFFIXES,
      subSuffix p (normalize_party_name "SMITH OIL, LLC").normalized_name.data
        = none) ∧
    (normalize_party_name
        ((normalize_party_name "SMITH OIL, LLC").normalized_name)).normalized_name
      = (normalize_party_name "SMITH OIL, LLC").normalized_name ∧
    (normalize_party_name "SMITH OIL, LLC").normalized_name = "SMITH OIL" :=
  ⟨by decide, C5_idempotent_when_suffix_free "SMITH OIL, LLC" (by decide),
    by decide⟩

/-- Every scan hit's page lies in the scanned range. -/
theorem scanLoop_bounds : ∀ (pages : List (Option String)) (idx : Nat),
    ∀ e ∈ scanLoop idx pages,
      (idx : Int) ≤ e.start_page ∧ e.start_page < (idx : Int) + pages.length := by
  intro pages
  induction pages with
  | nil => intro idx e he; cases he
  | cons p rest ih =>
    intro idx e he
    cases p with
    | none =>
      simp only [scanLoop] at he
      have := ih (idx + 1) e he
      constructor
      · have h1 := this.1
        push_cast at h1 ⊢
        omega
      · have h2 := this.2
        simp only [List.length_cons]
        push_cast at h2 ⊢
        omega
    | some t =>
      simp only [scanLoop] at he
      cases hpm : pageMarker (pyUpper t) with
      | none =>
        rw [hpm] at he
        have := ih (idx + 1) e he
        constructor
        · have h1 := this.1
          push_cast at h1 ⊢
          omega
        · have h2 := this.2
          simp only [List.length_cons]
          push_cast at h2 ⊢
          omega
      | some marker =>
        rw [hpm] at he
        rcases List.mem_cons.mp he with rfl | he'
        · constructor
          · exact le_refl _
          · simp only [List.length_cons]
            push_cast
            omega
        · have := ih (idx + 1) e he'
          constructor
          · have h1 := this.1
            push_cast at h1 ⊢
            omega
          · have h2 := this.2
            simp only [List.length_cons]
            push_cast at h2 ⊢
            omega

/-- Scan hits appear in strictly increasing page order. -/
theorem scanLoop_pairwise : ∀ (pages : List (Option String)) (idx : Nat),
    List.Pairwise (fun a b => a.start_page < b.start_page)
      (scanLoop idx pages) := by
  intro pages
  induction pages with
  | nil => intro idx; exact List.Pairwise.nil
  | cons p rest ih =>
    intro idx
    cases p with
    | none =>
      simp only [scanLoop]
      exact ih (idx + 1)
    | some t =>
      simp only [scanLoop]
      cases hpm : pageMarker (pyUpper t) with
      | none => exact ih (idx + 1)
      | some marker =>
        refine List.Pairwise.cons ?_ (ih (idx + 1))
        intro e he
        have := (scanLoop_bounds rest (idx + 1) e he).1
        simp only []
        push_cast at this ⊢
        omega

/-- Consolidation keeps a subsequence of the hit pages: the open region's
page followed by pages of later hits. -/
theorem consolidateAux_starts (l : List ExhibitInfo) : ∀ (c : ExhibitInfo),
    List.Sublist ((consolidateAux c l).map ExhibitInfo.start_page)
      (c.start_page :: l.map ExhibitInfo.start_page) := by
  induction l with
  | nil => intro c; exact List.Sublist.refl _
  | cons e rest ih =>
    intro c
    simp only [consolidateAux]
    split_ifs with h
    · exact (ih c).trans
        (List.Sublist.cons₂ _ (List.sublist_cons_self _ _))
    · simp only [List.map_cons]
      exact List.Sublist.cons₂ _ (ih (freshRegion e))

/-- The consolidated regions' pages form a subsequence of the hit pages. -/
theorem consolidate_starts (l : List ExhibitInfo) :
    List.Sublist ((_consolidate_exhibits l).map ExhibitInfo.start_page)
      (l.map ExhibitInfo.start_page) := by
  cases l with
  | nil => exact List.Sublist.refl _
  | cons e rest =>
    simp only [_consolidate_exhibits, List.map_cons]
    exact consolidateAux_starts rest (freshRegion e)

/-- `assignEnds` of a non-empty list starts with the first region, its
start page unchanged. -/
theorem assignEnds_head (total : Int) (f : ExhibitInfo)
    (rest : List ExhibitInfo) :
    ∃ f' t, assignEnds total (f :: rest) = f' :: t ∧
      f'.start_page = f.start_page := by
  cases rest with
  | nil => exact ⟨_, _, rfl, rfl⟩
  | cons g rest' => exact ⟨_, _, rfl, rfl⟩

/-- End-page assignment: every region ends one page before its successor
starts. -/
theorem assignEnds_chain (total : Int) : ∀ (l : List ExhibitInfo),
    List.Chain' (fun a b => a.end_page = some (b.start_page - 1))
      (assignEnds total l) := by
  intro l
  induction l with
  | nil => exact List.chain'_nil
  | cons e rest ih =>
    cases rest with
    | nil => exact List.chain'_singleton _
    | cons f rest' =>
      obtain ⟨f', t, he, hs⟩ := assignEnds_head total f rest'
      simp only [assignEnds, he]
      rw [he] at ih
      exact List.chain'_cons.mpr ⟨by simp [hs], ih⟩

/-- End-page assignment: the last region ends on the document's last
page. -/
theorem assignEnds_last (total : Int) : ∀ (l : List ExhibitInfo)
    (e : ExhibitInfo), (assignEnds total l).getLast? = some e →
    e.end_page = some (total - 1) := by
  intro l
  induction l with
  | nil => intro e he; cases he
  | cons a rest ih =>
    intro e he
    cases rest with
    | nil =>
      simp only [assignEnds, List.getLast?_singleton, Option.some.injEq] at he
      rw [← he]
    | cons f rest' =>
      obtain ⟨f', t, hf, _⟩ := assignEnds_head total f rest'
      simp only [assignEnds, hf] at he
      rw [List.getLast?_cons_cons] at he
      rw [← hf] at he
      exact ih e he

/-- End-page assignment: each region carries `page_count = end − start + 1`,
and `start ≤ end` when the input pages increase and stay below `total`. -/
theorem assignEnds_mem (total : Int) : ∀ (l : List ExhibitInfo),
    List.Chain' (fun a b => a.start_page < b.start_page) l →
    (∀ x ∈ l, x.start_page < total) →
    ∀ e ∈ assignEnds total l, ∃ ep, e.end_page = some ep ∧
      e.page_count = ep - e.start_page + 1 ∧ e.start_page ≤ ep := by
  intro l
  induction l with
  | nil => intro _ _ e he; cases he
  | cons a rest ih =>
    intro hch hbd e he
    cases rest with
    | nil =>
      simp only [assignEnds, List.mem_singleton] at he
      subst he
      refine ⟨total - 1, rfl, rfl, ?_⟩
      show a.start_page ≤ total - 1
      have := hbd a (List.mem_singleton.mpr rfl)
      omega
    | cons f rest' =>
      simp only [assignEnds, List.mem_cons] at he
      rcases he with rfl | he'
      · refine ⟨f.start_page - 1, rfl, rfl, ?_⟩
        show a.start_page ≤ f.start_page - 1
        have := (List.chain'_cons.mp hch).1
        omega
      · exact ih (List.chain'_cons.mp hch).2
          (fun x hx => hbd x (List.mem_cons_of_mem a hx)) e he'

/-- End-page assignment preserves the page order of the regions. -/
theorem assignEnds_chain_starts (total : Int) : ∀ (l : List ExhibitInfo),
    List.Chain' (fun a b => a.start_page < b.start_page) l →
    List.Chain' (fun a b => a.start_page < b.start_page)
      (assignEnds total l) := by
  intro l
  induction l with
  | nil => intro _; exact List.chain'_nil
  | cons a rest ih =>
    intro hch
    cases rest with
    | nil => exact List.chain'_singleton _
    | cons f rest' =>
      obtain ⟨f', t, hf, hs⟩ := assignEnds_head total f rest'
      simp only [assignEnds, hf]
      rw [hf] at ih
      refine List.chain'_cons.mpr ⟨?_, ih (List.chain'_cons.mp hch).2⟩
      have := (List.chain'_cons.mp hch).1
      simp only [hs]
      exact this

/-- Path assignment only touches the `path` field, so any adjacency
relation on the other fields survives it. -/
theorem setPaths_chain (pathFor : Nat → String)
    (R : ExhibitInfo → ExhibitInfo → Prop)
    (hR : ∀ a b p q, R a b → R { a with path := p } { b with path := q }) :
    ∀ (l : List ExhibitInfo) (i : Nat),
      List.Chain' R l → List.Chain' R (setPaths pathFor i l) := by
  intro l
  induction l with
  | nil => intro i _; exact List.chain'_nil
  | cons e rest ih =>
    intro i hch
    cases rest with
    | nil => exact List.chain'_singleton _
    | cons f rest' =>
      simp only [setPaths]
      refine List.chain'_cons.mpr ⟨?_, ?_⟩
      · exact hR e f _ _ (List.chain'_cons.mp hch).1
      · exact ih (i + 1) (List.chain'_cons.mp hch).2

/-- Every region after path assignment is a region of the input with the
same pages, end page and page count. -/
theorem setPaths_mem (pathFor : Nat → String) : ∀ (l : List ExhibitInfo)
    (i : Nat), ∀ e ∈ setPaths pathFor i l, ∃ e₀ ∈ l,
      e.start_page = e₀.start_page ∧ e.end_page = e₀.end_page ∧
      e.page_count = e₀.page_count := by
  intro l
  induction l with
  | nil => intro i e he; cases he
  | cons a rest ih =>
    intro i e he
    simp only [setPaths, List.mem_cons] at he
    rcases he with rfl | he'
    · exact ⟨a, List.mem_cons_self a rest, rfl, rfl, rfl⟩
    · obtain ⟨e₀, h₀, hs⟩ := ih (i + 1) e he'
      exact ⟨e₀, List.mem_cons_of_mem a h₀, hs⟩

/-- The last region after path assignment is the input's last region with
the same end page. -/
theorem setPaths_last (pathFor : Nat → String) : ∀ (l : List ExhibitInfo)
    (i : Nat) (e : ExhibitInfo), (setPaths pathFor i l).getLast? = some e →
    ∃ e₀, l.getLast? = some e₀ ∧ e.end_page = e₀.end_page := by
  intro l
  induction l with
  | nil => intro i e he; cases he
  | cons a rest ih =>
    intro i e he
    cases rest with
    | nil =>
      simp only [setPaths, List.getLast?_singleton, Option.some.injEq] at he
      exact ⟨a, rfl, by rw [← he]⟩
    | cons f rest' =>
      simp only [setPaths] at he
      rw [List.getLast?_cons_cons] at he
      have he2 : (setPaths pathFor (i + 1) (f :: rest')).getLast? = some e := by
        simpa [setPaths] using he
      obtain ⟨e₀, h₀, hs⟩ := ih (i + 1) e he2
      refine ⟨e₀, ?_, hs⟩
      rw [List.getLast?_cons_cons]
      exact h₀

/-- C3: after `find_split_points` and `split_document`, the body end page
is the first consolidated region's start page, or the total page count when
no marker was matched in the scan window (and then the exhibit list is
empty); every exhibit's end page is the next exhibit's start page minus 1,
the last exhibit's end page is total minus 1, each exhibit's `page_count`
is end − start + 1 with start ≤ end, and the regions are page-ordered (so
non-overlapping). -/
theorem C3_split_arithmetic (pages : List (Option String)) (scan_pages : Nat)
    (bodyPath : String) (pathFor : Nat → String) :
    ((find_split_points pages scan_pages).exhibits = [] →
      (find_split_points pages scan_pages).body_end
        = some (pages.length : Int)) ∧
    (∀ e es, (find_split_points pages scan_pages).exhibits = e :: es →
      (find_split_points pages scan_pages).body_end = some e.start_page) ∧
    (∀ e ∈ (split_document (pages.length : Int)
        (find_split_points pages scan_pages) bodyPath pathFor).exhibits,
      ∃ ep, e.end_page = some ep ∧ e.page_count = ep - e.start_page + 1 ∧
        e.start_page ≤ ep) ∧
    List.Chain' (fun a b => a.end_page = some (b.start_page - 1))
      (split_document (pages.length : Int)
        (find_split_points pages scan_pages) bodyPath pathFor).exhibits ∧
    (∀ e, (split_document (pages.length : Int)
          (find_split_points pages scan_pages) bodyPath pathFor).exhibits.getLast?
        = some e → e.end_page = some ((pages.length : Int) - 1)) ∧
    List.Chain' (fun a b => a.start_page < b.start_page)
      (split_document (pages.length : Int)
        (find_split_points pages scan_pages) bodyPath pathFor).exhibits := by
  have hex : (find_split_points pages scan_pages).exhibits
      = _consolidate_exhibits
          (scanLoop 0 (pages.take (min scan_pages pages.length))) := rfl
  have hsd : (split_document (pages.length : Int)
        (find_split_points pages scan_pages) bodyPath pathFor).exhibits
      = setPaths pathFor 0 (assignEnds (pages.length : Int)
          (_consolidate_exhibits
            (scanLoop 0 (pages.take (min scan_pages pages.length))))) := rfl
  have hpw : List.Pairwise (fun a b => a.start_page < b.start_page)
      (scanLoop 0 (pages.take (min scan_pages pages.length))) :=
    scanLoop_pairwise _ 0
  have hbd : ∀ e ∈ scanLoop 0 (pages.take (min scan_pages pages.length)),
      e.start_page < (pages.length : Int) := by
    intro e he
    have h1 := (scanLoop_bounds _ 0 e he).2
    have h2 : ((pages.take (min scan_pages pages.length)).length : Int)
        ≤ (pages.length : Int) := by
      rw [List.length_take]
      exact_mod_cast min_le_right _ _
    push_cast at h1
    omega
  have hpwCE : List.Pairwise (fun a b => a.start_page < b.start_page)
      (_consolidate_exhibits
        (scanLoop 0 (pages.take (min scan_pages pages.length)))) := by
    have h1 : List.Pairwise (· < ·)
        ((scanLoop 0 (pages.take (min scan_pages pages.length))).map
          ExhibitInfo.start_page) := List.pairwise_map.mpr hpw
    exact List.pairwise_map.mp (h1.sublist (consolidate_starts _))
  have hbdCE : ∀ e ∈ _consolidate_exhibits
      (scanLoop 0 (pages.take (min scan_pages pages.length))),
      e.start_page < (pages.length : Int) := by
    intro e he
    have h1 : e.start_page ∈ (_consolidate_exhibits
        (scanLoop 0 (pages.take (min scan_pages pages.length)))).map
          ExhibitInfo.start_page := List.mem_map_of_mem _ he
    have h2 := (consolidate_starts _).subset h1
    obtain ⟨h0, hm, heq⟩ := List.mem_map.mp h2
    rw [← heq]
    exact hbd h0 hm
  have hchCE := hpwCE.chain'
  refine ⟨?_, ?_, ?_, ?_, ?_, ?_⟩
  · intro hni
    rw [hex] at hni
    cases hhits : scanLoop 0 (pages.take (min scan_pages pages.length)) with
    | nil =>
      show (match (scanLoop 0
          (pages.take (min scan_pages pages.length))).head?.map
            (·.start_page) with
        | none => some ((pages.length : Nat) : Int)
        | some b => some b) = some (pages.length : Int)
      rw [hhits]
      rfl
    | cons h t =>
      rw [hhits] at hni
      simp only [_consolidate_exhibits] at hni
      obtain ⟨tl, htl⟩ := consolidateAux_head (freshRegion h) t
      rw [htl] at hni
      cases hni
  · intro e es hee
    rw [hex] at hee
    cases hhits : scanLoop 0 (pages.take (min scan_pages pages.length)) with
    | nil =>
      rw [hhits] at hee
      cases hee
    | cons h t =>
      rw [hhits] at hee
      simp only [_consolidate_exhibits] at hee
      obtain ⟨tl, htl⟩ := consolidateAux_head (freshRegion h) t
      rw [htl] at hee
      have he : e = freshRegion h := ((List.cons.injEq _ _ _ _ ▸ hee).1).symm
      show (match (scanLoop 0
          (pages.take (min scan_pages pages.length))).head?.map
            (·.start_page) with
        | none => some ((pages.length : Nat) : Int)
        | some b => some b) = some e.start_page
      rw [hhits, he]
      rfl
  · rw [hsd]
    intro e he
    obtain ⟨e₁, he₁, hs, hep, hpc⟩ := setPaths_mem pathFor _ 0 e he
    obtain ⟨ep, h1, h2, h3⟩ := assignEnds_mem (pages.length : Int) _
      hchCE hbdCE e₁ he₁
    exact ⟨ep, by rw [hep, h1], by rw [hpc, h2, hs], by rw [hs]; exact h3⟩
  · rw [hsd]
    refine setPaths_chain pathFor _ ?_ _ 0 (assignEnds_chain _ _)
    intro a b p q hab
    exact hab
  · rw [hsd]
    intro e he
    obtain ⟨e₀, h₀, hs⟩ := setPaths_last pathFor _ 0 e he
    rw [hs]
    exact assignEnds_last _ _ e₀ h₀
  · rw [hsd]
    refine setPaths_chain pathFor _ ?_ _ 0 (assignEnds_chain_starts _ _ hchCE)
    intro a b p q hab
    exact hab

/-- C3 witness: a one-page document with no exhibit marker has an empty
exhibit list, and the theorem gives body_end = total = 1. -/
theorem C3_split_arithmetic_witness :
    (find_split_points [some "DEED OF TRUST"] 20).body_end = some 1 ∧
    (find_split_points [some "DEED OF TRUST"] 20).exhibits = [] :=
  ⟨(C3_split_arithmetic [some "DEED OF TRUST"] 20 "BODY"
      (fun _ => "EXHIBIT")).1 (by decide), by decide⟩
